import Mathlib

/-!
Verification of `librbd/cache/ReplicatedWriteLog.cc` (RWL), a replicated
write-back block cache.  Each section embeds one part of the source file as
executable Lean definitions and proves the specification claims about it.
-/

namespace RWL

/-!
### Block extents and the write-log map (`WriteLogMap`, source lines 255-498)

A `BlockExtent` is an inclusive range of block indices (`block_extent()` at
lines 42-46 builds `[offset, offset+len-1]`).  The map
`m_block_to_log_entry_map` is a `std::multiset` of `WriteLogMapEntry` ordered
by the comparator at lines 488-494 (`lhs.block_end < rhs.block_start`), under
which two entries compare equivalent iff their extents overlap.  We model the
multiset as a list of entries; `equal_range` (used by
`find_map_entries_locked`, line 460) becomes a filter by overlap, and
`multiset::find` on a key becomes the first entry overlapping the key.  Log
entries are identified by numeric ids, and the per-log-entry
`referring_map_entries` counters are modelled as one function from ids to
`Nat`.
-/

structure BlockExtent where
  block_start : Nat
  block_end : Nat
deriving DecidableEq, Repr

/-- The multiset comparator `WriteLogMapEntryCompare` (source line 488). -/
def extent_less (a b : BlockExtent) : Bool :=
  a.block_end < b.block_start

/-- Two extents compare equivalent under `extent_less` iff they overlap. -/
def overlaps (a b : BlockExtent) : Bool :=
  !extent_less a b && !extent_less b a

structure WriteLogMapEntry where
  block_extent : BlockExtent
  log_entry : Nat
deriving DecidableEq, Repr

structure WriteLogMapState where
  entries : List WriteLogMapEntry
  refs : Nat → Nat

/-- `find_map_entries_locked` (source lines 455-468): all map entries whose
extent overlaps the given extent, via `equal_range` on the overlap
comparator. -/
def find_map_entries_locked (s : WriteLogMapState) (ext : BlockExtent) :
    List WriteLogMapEntry :=
  s.entries.filter (fun e => overlaps ext e.block_extent)

/-- `multiset::find` on the overlap-equivalence key: the first entry whose
extent overlaps the key. -/
def find_map_entry (l : List WriteLogMapEntry) (key : BlockExtent) :
    Option WriteLogMapEntry :=
  match l with
  | [] => none
  | e :: rest => if overlaps key e.block_extent then some e else find_map_entry rest key

/-- Erase the entry located by `find` and put the given replacement pieces in
its place.  `remove_map_entry_locked`, `adjust_map_entry_locked` and
`split_map_entry_locked` (source lines 396-437) all erase the located entry
and insert zero, one or two replacement entries into the multiset. -/
def map_replace (l : List WriteLogMapEntry) (key : BlockExtent)
    (pieces : List WriteLogMapEntry) : List WriteLogMapEntry :=
  match l with
  | [] => []
  | e :: rest =>
    if overlaps key e.block_extent then pieces ++ rest
    else e :: map_replace rest key pieces

/-- `log_entry->referring_map_entries++`. -/
def ref_inc (f : Nat → Nat) (i : Nat) : Nat → Nat :=
  fun j => if j = i then f j + 1 else f j

/-- `log_entry->referring_map_entries--`. -/
def ref_dec (f : Nat → Nat) (i : Nat) : Nat → Nat :=
  fun j => if j = i then f j - 1 else f j

/-- `add_map_entry_locked` (source lines 389-394). -/
def add_map_entry_locked (s : WriteLogMapState) (me : WriteLogMapEntry) :
    WriteLogMapState :=
  { entries := s.entries ++ [me], refs := ref_inc s.refs me.log_entry }

/-- `remove_map_entry_locked` (source lines 396-407).  The source asserts that
`find` succeeds; a failed `find` leaves the state unchanged here. -/
def remove_map_entry_locked (s : WriteLogMapState) (me : WriteLogMapEntry) :
    WriteLogMapState :=
  match find_map_entry s.entries me.block_extent with
  | none => s
  | some erased =>
    { entries := map_replace s.entries me.block_extent [],
      refs := ref_dec s.refs erased.log_entry }

/-- `adjust_map_entry_locked` (source lines 409-418). -/
def adjust_map_entry_locked (s : WriteLogMapState) (me : WriteLogMapEntry)
    (new_extent : BlockExtent) : WriteLogMapState :=
  match find_map_entry s.entries me.block_extent with
  | none => s
  | some adjusted =>
    { entries := map_replace s.entries me.block_extent
        [⟨new_extent, adjusted.log_entry⟩],
      refs := s.refs }

/-- `split_map_entry_locked` (source lines 420-437): replace the located entry
by a left remainder and a right remainder, both keeping the located entry's
log entry, and increment that log entry's back-reference count once. -/
def split_map_entry_locked (s : WriteLogMapState) (me : WriteLogMapEntry)
    (removed_extent : BlockExtent) : WriteLogMapState :=
  match find_map_entry s.entries me.block_extent with
  | none => s
  | some sp =>
    { entries := map_replace s.entries me.block_extent
        [⟨⟨sp.block_extent.block_start, removed_extent.block_start - 1⟩, sp.log_entry⟩,
         ⟨⟨removed_extent.block_end + 1, sp.block_extent.block_end⟩, sp.log_entry⟩],
      refs := ref_inc s.refs sp.log_entry }

/-- One iteration of the overlap-resolution loop in `add_log_entry_locked`
(source lines 344-369).  `map_ext` is the extent of the entry being added and
`entry` is one overlapping entry from the snapshot list. -/
def resolve_overlap (s : WriteLogMapState) (map_ext : BlockExtent)
    (entry : WriteLogMapEntry) : WriteLogMapState :=
  if map_ext.block_start ≤ entry.block_extent.block_start then
    if entry.block_extent.block_end ≤ map_ext.block_end then
      remove_map_entry_locked s entry
    else
      adjust_map_entry_locked s entry
        ⟨map_ext.block_end + 1, entry.block_extent.block_end⟩
  else
    if entry.block_extent.block_end ≤ map_ext.block_end then
      adjust_map_entry_locked s entry
        ⟨entry.block_extent.block_start, map_ext.block_start - 1⟩
    else
      split_map_entry_locked s entry map_ext

/-- `add_log_entry_locked` (source lines 336-372): snapshot the overlapping
entries, resolve each one, then add the new range as a single map entry. -/
def add_log_entry_locked (s : WriteLogMapState) (id : Nat) (ext : BlockExtent) :
    WriteLogMapState :=
  let overlap_entries := find_map_entries_locked s ext
  let s2 := overlap_entries.foldl (fun t e => resolve_overlap t ext e) s
  add_map_entry_locked s2 ⟨ext, id⟩

/-- A well-formed extent has a start no greater than its (inclusive) end. -/
def extwf (e : BlockExtent) : Prop := e.block_start ≤ e.block_end

/-- All entries of the map carry well-formed extents. -/
def AllWF (l : List WriteLogMapEntry) : Prop := ∀ e ∈ l, extwf e.block_extent

/-- The documented invariant of the map (source lines 476-478): it holds no
two overlapping entries. -/
def Nonoverlapping (l : List WriteLogMapEntry) : Prop :=
  l.Pairwise (fun a b => overlaps a.block_extent b.block_extent = false)

/-- The documented back-reference invariant: each log entry's
`referring_map_entries` equals the number of map entries pointing at it. -/
def RefsConsistent (s : WriteLogMapState) : Prop :=
  ∀ j, s.refs j = s.entries.countP (fun me => me.log_entry == j)

/-- Specification-side description of what one existing map entry becomes when
an entry with extent `ext` is inserted over it: removed if fully covered,
shrunk if overlapped on one side only, split into a left and a right remainder
if it strictly contains `ext`, untouched if it does not overlap `ext`. -/
def trim_pieces (ext : BlockExtent) (e : WriteLogMapEntry) :
    List WriteLogMapEntry :=
  if overlaps ext e.block_extent then
    if ext.block_start ≤ e.block_extent.block_start then
      if e.block_extent.block_end ≤ ext.block_end then []
      else [⟨⟨ext.block_end + 1, e.block_extent.block_end⟩, e.log_entry⟩]
    else
      if e.block_extent.block_end ≤ ext.block_end then
        [⟨⟨e.block_extent.block_start, ext.block_start - 1⟩, e.log_entry⟩]
      else
        [⟨⟨e.block_extent.block_start, ext.block_start - 1⟩, e.log_entry⟩,
         ⟨⟨ext.block_end + 1, e.block_extent.block_end⟩, e.log_entry⟩]
  else [e]

/-- `trim_pieces` applied across a whole entry list. -/
def trim_all (ext : BlockExtent) : List WriteLogMapEntry → List WriteLogMapEntry
  | [] => []
  | e :: rest => trim_pieces ext e ++ trim_all ext rest

theorem overlaps_iff {a b : BlockExtent} :
    overlaps a b = true ↔ b.block_start ≤ a.block_end ∧ a.block_start ≤ b.block_end := by
  simp [overlaps, extent_less, Nat.not_lt, and_comm]

theorem overlaps_eq_false_iff {a b : BlockExtent} :
    overlaps a b = false ↔ a.block_end < b.block_start ∨ b.block_end < a.block_start := by
  rw [← Bool.not_eq_true, overlaps_iff]
  omega

theorem overlaps_symm (a b : BlockExtent) : overlaps a b = overlaps b a := by
  simp [overlaps, extent_less, Bool.and_comm]

theorem overlaps_self {a : BlockExtent} (h : extwf a) : overlaps a a = true := by
  rw [overlaps_iff]
  exact ⟨Nat.le_trans h (Nat.le_refl _), Nat.le_trans h (Nat.le_refl _)⟩

/-- A sub-extent of a non-overlapping extent is itself non-overlapping. -/
theorem overlaps_false_of_sub {x e p : BlockExtent}
    (h : overlaps x e = false)
    (hs : e.block_start ≤ p.block_start) (he : p.block_end ≤ e.block_end) :
    overlaps x p = false := by
  rw [overlaps_eq_false_iff] at h ⊢
  omega

theorem trim_pieces_of_no_overlap {ext : BlockExtent} {e : WriteLogMapEntry}
    (h : overlaps ext e.block_extent = false) : trim_pieces ext e = [e] := by
  simp [trim_pieces, h]

theorem trim_all_append (ext : BlockExtent) (l₁ l₂ : List WriteLogMapEntry) :
    trim_all ext (l₁ ++ l₂) = trim_all ext l₁ ++ trim_all ext l₂ := by
  induction l₁ with
  | nil => simp [trim_all]
  | cons e rest ih => simp [trim_all, ih]

theorem trim_all_of_no_overlap {ext : BlockExtent} {l : List WriteLogMapEntry}
    (h : ∀ e ∈ l, overlaps ext e.block_extent = false) : trim_all ext l = l := by
  induction l with
  | nil => rfl
  | cons e rest ih =>
    rw [trim_all, trim_pieces_of_no_overlap (h e (by simp)),
      ih (fun x hx => h x (by simp [hx]))]
    rfl

/-- The pieces an overlapping entry is trimmed to: each keeps the old log
entry id, is a well-formed sub-extent of the old entry, and no longer
overlaps the inserted extent. -/
theorem trim_pieces_spec {ext : BlockExtent} {e : WriteLogMapEntry}
    (hov : overlaps ext e.block_extent = true)
    (hwfe : extwf e.block_extent) (hext : extwf ext) :
    ∀ p ∈ trim_pieces ext e,
      p.log_entry = e.log_entry ∧ extwf p.block_extent ∧
      e.block_extent.block_start ≤ p.block_extent.block_start ∧
      p.block_extent.block_end ≤ e.block_extent.block_end ∧
      overlaps ext p.block_extent = false := by
  intro p hp
  rw [overlaps_iff] at hov
  unfold trim_pieces at hp
  rw [if_pos (by rw [overlaps_iff]; exact hov)] at hp
  unfold extwf at hwfe hext ⊢
  by_cases h₁ : ext.block_start ≤ e.block_extent.block_start <;>
    by_cases h₂ : e.block_extent.block_end ≤ ext.block_end <;>
    simp [h₁, h₂] at hp
  · rcases hp with rfl
    refine ⟨rfl, ?_, ?_, ?_, ?_⟩ <;> simp [overlaps_eq_false_iff] <;> omega
  · rcases hp with rfl
    refine ⟨rfl, ?_, ?_, ?_, ?_⟩ <;> simp [overlaps_eq_false_iff] <;> omega
  · rcases hp with rfl | rfl <;>
      (refine ⟨rfl, ?_, ?_, ?_, ?_⟩ <;> simp [overlaps_eq_false_iff] <;> omega)

/-- The two remainders of a split do not overlap each other; in general the
trim pieces of one entry are pairwise non-overlapping. -/
theorem trim_pieces_nonoverlapping {ext : BlockExtent} {e : WriteLogMapEntry}
    (hext : extwf ext) :
    Nonoverlapping (trim_pieces ext e) := by
  unfold trim_pieces Nonoverlapping
  by_cases h₀ : overlaps ext e.block_extent <;>
    by_cases h₁ : ext.block_start ≤ e.block_extent.block_start <;>
    by_cases h₂ : e.block_extent.block_end ≤ ext.block_end <;>
    simp [h₀, h₁, h₂, overlaps_eq_false_iff] <;> unfold extwf at hext <;> omega

theorem find_map_entry_split {l₁ l₂ : List WriteLogMapEntry}
    {e : WriteLogMapEntry} {key : BlockExtent}
    (h₁ : ∀ x ∈ l₁, overlaps key x.block_extent = false)
    (he : overlaps key e.block_extent = true) :
    find_map_entry (l₁ ++ e :: l₂) key = some e := by
  induction l₁ with
  | nil => simp [find_map_entry, he]
  | cons a rest ih =>
    have ha := h₁ a (by simp)
    simp only [List.cons_append, find_map_entry, ha]
    exact ih (fun x hx => h₁ x (by simp [hx]))

theorem map_replace_split {l₁ l₂ pieces : List WriteLogMapEntry}
    {e : WriteLogMapEntry} {key : BlockExtent}
    (h₁ : ∀ x ∈ l₁, overlaps key x.block_extent = false)
    (he : overlaps key e.block_extent = true) :
    map_replace (l₁ ++ e :: l₂) key pieces = l₁ ++ pieces ++ l₂ := by
  induction l₁ with
  | nil => simp [map_replace, he]
  | cons a rest ih =>
    have ha := h₁ a (by simp)
    simp only [List.cons_append, map_replace, ha]
    simp [ih (fun x hx => h₁ x (by simp [hx]))]

theorem filter_eq_cons_split {α : Type} {p : α → Bool} {l rest : List α} {e : α}
    (h : l.filter p = e :: rest) :
    ∃ l₁ l₂, l = l₁ ++ e :: l₂ ∧ (∀ x ∈ l₁, p x = false) ∧ p e = true ∧
      l₂.filter p = rest := by
  induction l generalizing rest with
  | nil => simp at h
  | cons a t ih =>
    by_cases hp : p a
    · rw [List.filter_cons_of_pos hp] at h
      obtain ⟨rfl, rfl⟩ : a = e ∧ t.filter p = rest := by
        constructor <;> simp_all
      exact ⟨[], t, by simp, by simp, hp, rfl⟩
    · rw [List.filter_cons_of_neg hp] at h
      obtain ⟨l₁, l₂, rfl, h₁, h₂, h₃⟩ := ih h
      exact ⟨a :: l₁, l₂, by simp, by simpa [hp] using h₁, h₂, h₃⟩

/-- Net effect of one resolution step on the back-reference counters:
decrement for a removed entry, unchanged for a shrunk entry, one increment
for a split entry. -/
def resolve_refs (f : Nat → Nat) (ext : BlockExtent) (e : WriteLogMapEntry) :
    Nat → Nat :=
  if ext.block_start ≤ e.block_extent.block_start then
    if e.block_extent.block_end ≤ ext.block_end then ref_dec f e.log_entry else f
  else
    if e.block_extent.block_end ≤ ext.block_end then f
    else ref_inc f e.log_entry

theorem resolve_overlap_spec {s : WriteLogMapState} {ext : BlockExtent}
    {e : WriteLogMapEntry} {l₁ l₂ : List WriteLogMapEntry}
    (hs : s.entries = l₁ ++ e :: l₂)
    (h₁ : ∀ x ∈ l₁, overlaps e.block_extent x.block_extent = false)
    (hwfe : extwf e.block_extent) (hov : overlaps ext e.block_extent = true) :
    (resolve_overlap s ext e).entries = l₁ ++ trim_pieces ext e ++ l₂ ∧
    (resolve_overlap s ext e).refs = resolve_refs s.refs ext e := by
  have hself : overlaps e.block_extent e.block_extent = true := overlaps_self hwfe
  have hfind : find_map_entry s.entries e.block_extent = some e := by
    rw [hs]; exact find_map_entry_split h₁ hself
  have hrep : ∀ pieces, map_replace s.entries e.block_extent pieces = l₁ ++ pieces ++ l₂ := by
    intro pieces; rw [hs]; exact map_replace_split h₁ hself
  by_cases hA : ext.block_start ≤ e.block_extent.block_start <;>
    by_cases hB : e.block_extent.block_end ≤ ext.block_end <;>
    simp only [resolve_overlap, resolve_refs, hA, hB, if_true, if_false,
      remove_map_entry_locked, adjust_map_entry_locked, split_map_entry_locked,
      hfind, hrep, trim_pieces, hov] <;>
    simp [hA, hB]

theorem countP_trim_pieces {ext : BlockExtent} {e : WriteLogMapEntry}
    (hov : overlaps ext e.block_extent = true) (j : Nat) :
    (trim_pieces ext e).countP (fun me => me.log_entry == j) =
      if j = e.log_entry then
        (if ext.block_start ≤ e.block_extent.block_start then
           if e.block_extent.block_end ≤ ext.block_end then 0 else 1
         else if e.block_extent.block_end ≤ ext.block_end then 1 else 2)
      else 0 := by
  by_cases hj : j = e.log_entry
  · subst hj
    by_cases hA : ext.block_start ≤ e.block_extent.block_start <;>
      by_cases hB : e.block_extent.block_end ≤ ext.block_end <;>
      simp [trim_pieces, hov, hA, hB, List.countP_cons]
  · have hj2 : (e.log_entry == j) = false := by
      simp only [beq_eq_false_iff_ne, ne_eq]
      exact fun h => hj h.symm
    by_cases hA : ext.block_start ≤ e.block_extent.block_start <;>
      by_cases hB : e.block_extent.block_end ≤ ext.block_end <;>
      simp [trim_pieces, hov, hA, hB, List.countP_cons, hj2, hj]

/-- One step of the overlap-resolution loop, with all map invariants.  The
state decomposes as `l₁ ++ e :: l₂` where `e` is the first entry overlapping
the inserted extent `ext`; the step replaces `e` in place by its trim pieces
and adjusts only `e`'s back-reference count. -/
theorem resolve_step_all {s : WriteLogMapState} {ext : BlockExtent}
    {e : WriteLogMapEntry} {l₁ l₂ : List WriteLogMapEntry}
    (hs : s.entries = l₁ ++ e :: l₂)
    (hno : Nonoverlapping s.entries) (hwf : AllWF s.entries)
    (hrc : RefsConsistent s)
    (h₁ : ∀ x ∈ l₁, overlaps ext x.block_extent = false)
    (he : overlaps ext e.block_extent = true) (hext : extwf ext) :
    (resolve_overlap s ext e).entries = l₁ ++ trim_pieces ext e ++ l₂ ∧
    Nonoverlapping (resolve_overlap s ext e).entries ∧
    AllWF (resolve_overlap s ext e).entries ∧
    RefsConsistent (resolve_overlap s ext e) ∧
    (∀ j, j ≠ e.log_entry → (resolve_overlap s ext e).refs j = s.refs j) := by
  have hwfe : extwf e.block_extent := hwf e (by rw [hs]; simp)
  unfold Nonoverlapping at hno
  rw [hs, List.pairwise_append] at hno
  obtain ⟨hnoL, hnoR, hnoLR⟩ := hno
  rw [List.pairwise_cons] at hnoR
  obtain ⟨hel₂, hnol₂⟩ := hnoR
  have h₁e : ∀ x ∈ l₁, overlaps e.block_extent x.block_extent = false := by
    intro x hx
    rw [overlaps_symm]
    exact hnoLR x hx e (by simp)
  obtain ⟨hent, hrefs⟩ := resolve_overlap_spec hs h₁e hwfe he
  have hspec := trim_pieces_spec he hwfe hext
  refine ⟨hent, ?_, ?_, ?_, ?_⟩
  · -- non-overlap is preserved
    rw [hent]
    unfold Nonoverlapping
    rw [List.pairwise_append, List.pairwise_append]
    refine ⟨⟨hnoL, trim_pieces_nonoverlapping hext, ?_⟩, hnol₂, ?_⟩
    · -- l₁ vs pieces
      intro a ha p hp
      obtain ⟨-, -, hps, hpe, -⟩ := hspec p hp
      exact overlaps_false_of_sub (hnoLR a ha e (by simp)) hps hpe
    · -- (l₁ ++ pieces) vs l₂
      intro a ha b hb
      rcases List.mem_append.mp ha with hal₁ | hap
      · exact hnoLR a hal₁ b (by simp [hb])
      · obtain ⟨-, -, hps, hpe, -⟩ := hspec a hap
        rw [overlaps_symm]
        exact overlaps_false_of_sub (by rw [overlaps_symm]; exact hel₂ b hb) hps hpe
  · -- well-formedness is preserved
    rw [hent]
    intro x hx
    rcases List.mem_append.mp hx with hx' | hxl₂
    · rcases List.mem_append.mp hx' with hxl₁ | hxp
      · exact hwf x (by rw [hs]; simp [hxl₁])
      · exact (hspec x hxp).2.1
    · exact hwf x (by rw [hs]; simp [hxl₂])
  · -- back-reference consistency is preserved
    intro j
    have hcnt := hrc j
    rw [hs] at hcnt
    simp only [List.countP_append, List.countP_cons] at hcnt
    rw [hrefs, hent]
    simp only [List.countP_append]
    rw [countP_trim_pieces he]
    unfold resolve_refs ref_dec ref_inc
    by_cases hj : j = e.log_entry
    · subst hj
      simp only [beq_self_eq_true, if_true] at hcnt
      by_cases hA : ext.block_start ≤ e.block_extent.block_start <;>
        by_cases hB : e.block_extent.block_end ≤ ext.block_end <;>
        simp [hA, hB] <;> omega
    · have hj2 : (e.log_entry == j) = false := by
        simp only [beq_eq_false_iff_ne, ne_eq]
        exact fun h => hj h.symm
      simp only [hj2, Bool.false_eq_true, if_false] at hcnt
      by_cases hA : ext.block_start ≤ e.block_extent.block_start <;>
        by_cases hB : e.block_extent.block_end ≤ ext.block_end <;>
        simp [hA, hB, hj] <;> omega
  · -- other log entries' counters are untouched
    intro j hj
    rw [hrefs]
    unfold resolve_refs ref_dec ref_inc
    by_cases hA : ext.block_start ≤ e.block_extent.block_start <;>
      by_cases hB : e.block_extent.block_end ≤ ext.block_end <;>
      simp [hA, hB, hj]

theorem filter_overlaps_eq_nil {ext : BlockExtent} {l : List WriteLogMapEntry}
    (h : ∀ x ∈ l, overlaps ext x.block_extent = false) :
    l.filter (fun e => overlaps ext e.block_extent) = [] := by
  induction l with
  | nil => rfl
  | cons a t ih =>
    rw [List.filter_cons_of_neg (by simp [h a (by simp)])]
    exact ih (fun x hx => h x (by simp [hx]))

/-- The whole overlap-resolution loop of `add_log_entry_locked`: it rewrites
the map to the entrywise trimmed entries, preserves all map invariants, leaves
no entry overlapping the inserted extent, and does not touch the counter of a
log entry with no map entries. -/
theorem resolve_fold {ext : BlockExtent} (hext : extwf ext) (id : Nat) :
    ∀ (ovl : List WriteLogMapEntry) (s : WriteLogMapState),
      Nonoverlapping s.entries → AllWF s.entries → RefsConsistent s →
      (∀ me ∈ s.entries, me.log_entry ≠ id) →
      s.entries.filter (fun e => overlaps ext e.block_extent) = ovl →
      (ovl.foldl (fun t e => resolve_overlap t ext e) s).entries =
          trim_all ext s.entries ∧
      Nonoverlapping (ovl.foldl (fun t e => resolve_overlap t ext e) s).entries ∧
      AllWF (ovl.foldl (fun t e => resolve_overlap t ext e) s).entries ∧
      RefsConsistent (ovl.foldl (fun t e => resolve_overlap t ext e) s) ∧
      (ovl.foldl (fun t e => resolve_overlap t ext e) s).refs id = s.refs id ∧
      ((ovl.foldl (fun t e => resolve_overlap t ext e) s).entries.filter
          (fun e => overlaps ext e.block_extent)) = [] := by
  intro ovl
  induction ovl with
  | nil =>
    intro s hno hwf hrc hfresh hfilter
    have hnov : ∀ e ∈ s.entries, overlaps ext e.block_extent = false := by
      intro e he
      by_contra hne
      have hmem : e ∈ s.entries.filter (fun e => overlaps ext e.block_extent) :=
        List.mem_filter.mpr ⟨he, by simpa using hne⟩
      rw [hfilter] at hmem
      simp at hmem
    simp only [List.foldl_nil]
    exact ⟨(trim_all_of_no_overlap hnov).symm, hno, hwf, hrc, by simp, hfilter⟩
  | cons e ovl2 ih =>
    intro s hno hwf hrc hfresh hfilter
    obtain ⟨l₁, l₂, hs, h₁, he, hl₂⟩ := filter_eq_cons_split hfilter
    have hmem_e : e ∈ s.entries := by rw [hs]; simp
    have hwfe : extwf e.block_extent := hwf e hmem_e
    have hspec := trim_pieces_spec he hwfe hext
    obtain ⟨hent, hno1, hwf1, hrc1, hrefs1⟩ := resolve_step_all hs hno hwf hrc h₁ he hext
    have hfresh1 : ∀ me ∈ (resolve_overlap s ext e).entries, me.log_entry ≠ id := by
      rw [hent]
      intro me hme
      rcases List.mem_append.mp hme with hme' | hmel₂
      · rcases List.mem_append.mp hme' with hmel₁ | hmep
        · exact hfresh me (by rw [hs]; simp [hmel₁])
        · rw [(hspec me hmep).1]
          exact hfresh e hmem_e
      · exact hfresh me (by rw [hs]; simp [hmel₂])
    have hfilter1 : (resolve_overlap s ext e).entries.filter
        (fun x => overlaps ext x.block_extent) = ovl2 := by
      rw [hent]
      simp only [List.filter_append]
      rw [filter_overlaps_eq_nil h₁,
        filter_overlaps_eq_nil (fun p hp => (hspec p hp).2.2.2.2), hl₂]
      simp
    have htrim : trim_all ext (resolve_overlap s ext e).entries =
        trim_all ext s.entries := by
      rw [hent, hs]
      rw [trim_all_append, trim_all_append, trim_all_append]
      rw [trim_all_of_no_overlap (fun p hp => (hspec p hp).2.2.2.2)]
      simp [trim_all]
    have hstep := ih (resolve_overlap s ext e) hno1 hwf1 hrc1 hfresh1 hfilter1
    rw [List.foldl_cons]
    refine ⟨?_, hstep.2.1, hstep.2.2.1, hstep.2.2.2.1, ?_, hstep.2.2.2.2.2⟩
    · rw [hstep.1, htrim]
    · rw [hstep.2.2.2.2.1, hrefs1 id (fun hcontra => hfresh e hmem_e hcontra.symm)]

/--
C1: when a write log entry is inserted into the write-log map
(`add_log_entry_locked`, source lines 336-372), every existing overlapping
entry is resolved first: an entry fully covered by the new range is removed,
an entry overlapped on one side only is shrunk to its remainder, and an entry
strictly containing the new range is split into a left and a right remainder
that both keep the old log entry, whose back-reference count rises by exactly
one (`trim_all` and `RefsConsistent` capture these per-entry outcomes).  The
new range is then added as a single map entry with its own back-reference
count incremented, and the map still contains no two overlapping entries.
-/
theorem C1_write_log_map_insert (s : WriteLogMapState) (id : Nat)
    (ext : BlockExtent)
    (hno : Nonoverlapping s.entries) (hwf : AllWF s.entries)
    (hrc : RefsConsistent s)
    (hfresh : ∀ me ∈ s.entries, me.log_entry ≠ id) (hext : extwf ext) :
    (add_log_entry_locked s id ext).entries =
        trim_all ext s.entries ++ [⟨ext, id⟩] ∧
    Nonoverlapping (add_log_entry_locked s id ext).entries ∧
    RefsConsistent (add_log_entry_locked s id ext) ∧
    (add_log_entry_locked s id ext).refs id = s.refs id + 1 := by
  obtain ⟨hent, hno2, hwf2, hrc2, hid, hfilter0⟩ :=
    resolve_fold hext id (find_map_entries_locked s ext) s hno hwf hrc hfresh rfl
  unfold add_log_entry_locked add_map_entry_locked
  simp only []
  set s2 := (find_map_entries_locked s ext).foldl (fun t e => resolve_overlap t ext e) s with hs2
  have hnov2 : ∀ a ∈ s2.entries, overlaps ext a.block_extent = false := by
    intro a ha
    by_contra hne
    have hmem : a ∈ s2.entries.filter (fun e => overlaps ext e.block_extent) :=
      List.mem_filter.mpr ⟨ha, by simpa using hne⟩
    rw [hfilter0] at hmem
    simp at hmem
  refine ⟨by rw [hent], ?_, ?_, ?_⟩
  · unfold Nonoverlapping
    rw [List.pairwise_append]
    refine ⟨hno2, by simp, ?_⟩
    intro a ha b hb
    rw [List.mem_singleton] at hb
    subst hb
    rw [overlaps_symm]
    exact hnov2 a ha
  · intro j
    have h2 := hrc2 j
    unfold ref_inc
    simp only [List.countP_append, List.countP_cons, List.countP_nil]
    by_cases hj : j = id
    · subst hj
      simp [h2]
    · have hne : (id == j) = false := by
        simp only [beq_eq_false_iff_ne, ne_eq]
        exact fun h => hj h.symm
      simp [hj, hne, h2]
  · unfold ref_inc
    simp [hid]

/-- Witness for C1 on a concrete map: inserting entry 2 over blocks 3..5 of a
map holding entry 1 on blocks 0..9 splits the old entry in two. -/
theorem C1_write_log_map_insert_witness :
    Nonoverlapping (add_log_entry_locked
        ⟨[⟨⟨0, 9⟩, 1⟩], fun j => if 1 = j then 1 else 0⟩ 2 ⟨3, 5⟩).entries ∧
    (add_log_entry_locked
        ⟨[⟨⟨0, 9⟩, 1⟩], fun j => if 1 = j then 1 else 0⟩ 2 ⟨3, 5⟩).refs 2 = 1 := by
  have h := C1_write_log_map_insert
    ⟨[⟨⟨0, 9⟩, 1⟩], fun j => if 1 = j then 1 else 0⟩ 2 ⟨3, 5⟩
    (by unfold Nonoverlapping; simp)
    (by intro e he; simp at he; subst he; unfold extwf; simp)
    (by intro j; by_cases hj : (1 : Nat) = j <;> simp [List.countP_cons, hj])
    (by intro me hme; simp at hme; subst hme; simp)
    (by show (3 : Nat) ≤ 5; omega)
  exact ⟨h.2.1, h.2.2.2⟩

/-!
### Sync points, `new_sync_point` and `aio_flush` (source lines 2226-2292,
2306-2380, 2449-2501)

A sync point is modelled by its generation number, the number of writes
attached to it (`log_entry->m_writes`), its `m_append_scheduled` flag and its
`m_on_sync_point_persisted` list.  Flush requests attached to that list are
modelled as `Option Nat`: `some id` is a caller's flush request, `none` is the
internal flush request that `flush_new_sync_point` creates when it is called
with a null request (source lines 2242-2251).  A cache state holds the
current sync generation counter, the current sync point, and the chain of
earlier, not yet persisted sync points (nearest first).  Fields of the source
irrelevant to the claims proved here (gather completions, timestamps,
performance counters) are not modelled.
-/

structure SyncPt where
  gen : Nat
  writes : Nat
  append_scheduled : Bool
  on_persisted : List (Option Nat)
deriving DecidableEq, Repr

structure SyncPointChainState where
  current_sync_gen : Nat
  current : Option SyncPt
  earlier : List SyncPt
deriving DecidableEq, Repr

/-- `new_sync_point` (source lines 2449-2501): increment the generation,
install a fresh current sync point with no writes, and link the old current
sync point (if any) as its earlier neighbour. -/
def new_sync_point (s : SyncPointChainState) : SyncPointChainState :=
  { current_sync_gen := s.current_sync_gen + 1,
    current := some ⟨s.current_sync_gen + 1, 0, false, []⟩,
    earlier :=
      match s.current with
      | none => s.earlier
      | some old => old :: s.earlier }

/-- `flush_new_sync_point` (source lines 2239-2292): create a new sync point,
mark the now-previous one (`to_append`) as scheduled for append, and attach
the flush request (the caller's, or a fresh internal one when called with
null) to `to_append->m_on_sync_point_persisted` so it completes when that
sync point persists.  The source asserts `to_append` exists; with no earlier
sync point the state is returned unchanged here. -/
def flush_new_sync_point (fr : Option Nat) (s : SyncPointChainState) :
    SyncPointChainState :=
  let s1 := new_sync_point s
  match h : s1.earlier with
  | [] => s1
  | to_append :: rest =>
    { s1 with earlier :=
        { to_append with
          append_scheduled := true,
          on_persisted := to_append.on_persisted ++ [fr] } :: rest }

/-- `init_flush_new_sync_point` (source lines 2226-2236): used during
initialization and recovery, when there may not yet be a current sync
point. -/
def init_flush_new_sync_point (s : SyncPointChainState) : SyncPointChainState :=
  match s.current with
  | none => new_sync_point s
  | some _ => flush_new_sync_point none s

inductive FlushOutcome
  | attached_new_sync_point
  | attached_earlier
  | completed_immediately
deriving DecidableEq, Repr

structure AioFlushResult where
  state : SyncPointChainState
  outcome : FlushOutcome
  cell_released : Bool
deriving DecidableEq, Repr

/-- The decision made inside `aio_flush`'s guarded callback once the barrier
cell is granted (source lines 2330-2376): if the current sync point has
writes, call `flush_new_sync_point` with the caller's request; otherwise
attach it to the earlier sync point if one is still outstanding; otherwise
complete it immediately.  `release_guarded_request(cell)` runs
unconditionally right after the decision (line 2375), before any
persistence, which is recorded in `cell_released`. -/
def aio_flush_guarded_ctx (fr : Nat) (s : SyncPointChainState) : AioFlushResult :=
  match s.current with
  | none => ⟨s, .completed_immediately, true⟩
  | some c =>
    if c.writes ≠ 0 then
      ⟨flush_new_sync_point (some fr) s, .attached_new_sync_point, true⟩
    else
      match s.earlier with
      | e :: rest =>
        ⟨{ s with earlier :=
            { e with on_persisted := e.on_persisted ++ [some fr] } :: rest },
          .attached_earlier, true⟩
      | [] => ⟨s, .completed_immediately, true⟩

inductive AioFlushPath
  | queued_not_init
  | erofs
  | guarded (r : AioFlushResult)
deriving DecidableEq, Repr

/-- `aio_flush` (source lines 2306-2380).  If the cache never initialized the
request is queued for completion without taking the guard (lines 2312-2317);
a snapshot or read-only image fails with `-EROFS` (lines 2320-2325);
otherwise the request is detained as a barrier and the guarded callback
decides. -/
def aio_flush (is_init writable : Bool) (fr : Nat) (s : SyncPointChainState) :
    AioFlushPath :=
  if !is_init then .queued_not_init
  else if !writable then .erofs
  else .guarded (aio_flush_guarded_ctx fr s)

/--
C2: on an initialized writable cache, once the guard barrier is granted,
`aio_flush` reaches exactly one of three outcomes: with at least one write in
the current sync point, `flush_new_sync_point` runs with the caller's request
attached to the old current sync point's on-persisted list (which is also
marked scheduled for append); with no writes but an outstanding earlier sync
point, the request is attached to that sync point's on-persisted list;
otherwise it completes immediately.  In every case the guard cell is released
as soon as the decision is made to persist nothing further first.
-/
theorem C2_aio_flush_three_outcomes (fr : Nat) (s : SyncPointChainState)
    (c : SyncPt) (hcur : s.current = some c) :
    ∃ g : AioFlushResult, aio_flush true true fr s = .guarded g ∧
      g.cell_released = true ∧
      (c.writes ≠ 0 →
        g.outcome = .attached_new_sync_point ∧
        ∃ old rest, g.state.earlier = old :: rest ∧ old.gen = c.gen ∧
          old.append_scheduled = true ∧ some fr ∈ old.on_persisted ∧
          g.state.current_sync_gen = s.current_sync_gen + 1) ∧
      (c.writes = 0 → ∀ e rest, s.earlier = e :: rest →
        g.outcome = .attached_earlier ∧
        ∃ rest2, g.state.earlier =
          { e with on_persisted := e.on_persisted ++ [some fr] } :: rest2 ∧
          some fr ∈ ({ e with on_persisted := e.on_persisted ++ [some fr] } : SyncPt).on_persisted) ∧
      (c.writes = 0 → s.earlier = [] →
        g.outcome = .completed_immediately ∧ g.state = s) := by
  refine ⟨aio_flush_guarded_ctx fr s, by simp [aio_flush], ?_, ?_, ?_, ?_⟩
  · unfold aio_flush_guarded_ctx
    rw [hcur]
    by_cases hw : c.writes ≠ 0
    · simp [hw]
    · simp only [hw, if_false]
      cases s.earlier <;> simp
  · intro hw
    simp only [aio_flush_guarded_ctx, hcur]
    rw [if_pos hw]
    refine ⟨rfl, ?_⟩
    unfold flush_new_sync_point new_sync_point
    rw [hcur]
    exact ⟨_, _, rfl, rfl, rfl, by simp, rfl⟩
  · intro hw e rest hearlier
    unfold aio_flush_guarded_ctx
    rw [hcur, hearlier]
    simp [hw]
  · intro hw hearlier
    unfold aio_flush_guarded_ctx
    rw [hcur, hearlier]
    simp [hw]

/-- Witness for C2: a current sync point with two writes sends the flush
request down the `flush_new_sync_point` path with the cell released. -/
theorem C2_aio_flush_three_outcomes_witness :
    ∃ g : AioFlushResult,
      aio_flush true true 7 ⟨1, some ⟨1, 2, false, []⟩, []⟩ = .guarded g ∧
      g.cell_released = true ∧ g.outcome = .attached_new_sync_point := by
  obtain ⟨g, hg, hrel, hw, -, -⟩ :=
    C2_aio_flush_three_outcomes 7 ⟨1, some ⟨1, 2, false, []⟩, []⟩ ⟨1, 2, false, []⟩ rfl
  exact ⟨g, hg, hrel, (hw (by decide)).1⟩

/-!
### Flusher eligibility: `can_flush_entry` (source lines 3254-3292)

The fields mirror the members read by `can_flush_entry`: `m_invalidating`,
`m_flush_ops_in_flight`, `m_flush_bytes_in_flight` and
`m_lowest_flushing_sync_gen`, plus the two limits
`IN_FLIGHT_FLUSH_WRITE_LIMIT` and `IN_FLIGHT_FLUSH_BYTES_LIMIT`, whose values
live in the header and are carried here as parameters.  The source asserts
the entry is a write before evaluating, so only the entry's `completed` flag
and `sync_gen_number` matter.
-/

structure FlusherState where
  invalidating : Bool
  flush_ops_in_flight : Nat
  flush_bytes_in_flight : Nat
  lowest_flushing_sync_gen : Nat
  in_flight_flush_write_limit : Nat
  in_flight_flush_bytes_limit : Nat
deriving DecidableEq, Repr

/-- `can_flush_entry` (source lines 3254-3292). -/
def can_flush_entry (st : FlusherState) (completed : Bool)
    (sync_gen_number : Nat) : Bool :=
  if st.invalidating then true
  else if st.flush_ops_in_flight ≠ 0 &&
      st.lowest_flushing_sync_gen < sync_gen_number then false
  else
    completed && st.flush_ops_in_flight ≤ st.in_flight_flush_write_limit &&
      st.flush_bytes_in_flight ≤ st.in_flight_flush_bytes_limit

/-- The eligibility condition as the claim words it: a completed write AND
(no flushes in flight OR sync-gen at most the lowest flushing sync-gen) AND
the in-flight flush counts strictly below their limits. -/
def claim_can_flush (st : FlusherState) (completed : Bool)
    (sync_gen_number : Nat) : Bool :=
  completed &&
    (st.flush_ops_in_flight = 0 ||
      sync_gen_number ≤ st.lowest_flushing_sync_gen) &&
    st.flush_ops_in_flight < st.in_flight_flush_write_limit &&
    st.flush_bytes_in_flight < st.in_flight_flush_bytes_limit

/--
C3 counterexample: the claim does not match the code on two points.  While
invalidating, `can_flush_entry` returns true even for an uncompleted entry
(source line 3262), where the claim requires false; and the in-flight limits
are compared with `<=` (source lines 3290-3291), so a state with the
in-flight count exactly at the limit is still flushable, where the claim's
strict "below" requires false.
-/
theorem C3_can_flush_entry_counterexample :
    (can_flush_entry ⟨true, 0, 0, 0, 4, 4⟩ false 0 = true ∧
      claim_can_flush ⟨true, 0, 0, 0, 4, 4⟩ false 0 = false) ∧
    (can_flush_entry ⟨false, 4, 0, 5, 4, 4⟩ true 3 = true ∧
      claim_can_flush ⟨false, 4, 0, 5, 4, 4⟩ true 3 = false) := by
  decide

/--
C3 (amended): `can_flush_entry` returns true exactly when the cache is
invalidating, or the entry is a completed write AND (no flushes are in
flight OR its sync-gen is at most the lowest sync-gen currently flushing)
AND the in-flight flush write count and flush byte count are at or below
their limits.
-/
theorem C3_can_flush_entry_amended (st : FlusherState) (completed : Bool)
    (sync_gen_number : Nat) :
    can_flush_entry st completed sync_gen_number =
      (st.invalidating ||
        (completed &&
          (st.flush_ops_in_flight = 0 ||
            sync_gen_number ≤ st.lowest_flushing_sync_gen) &&
          st.flush_ops_in_flight ≤ st.in_flight_flush_write_limit &&
          st.flush_bytes_in_flight ≤ st.in_flight_flush_bytes_limit)) := by
  by_cases hi : st.invalidating
  · simp [can_flush_entry, hi]
  · by_cases hf : st.flush_ops_in_flight = 0
    · simp [can_flush_entry, hi, hf]
    · by_cases hg : st.lowest_flushing_sync_gen < sync_gen_number
      · have hg2 : ¬sync_gen_number ≤ st.lowest_flushing_sync_gen :=
          Nat.not_le.mpr hg
        simp [can_flush_entry, hi, hf, hg, hg2]
      · have hg2 : sync_gen_number ≤ st.lowest_flushing_sync_gen :=
          Nat.not_lt.mp hg
        simp [can_flush_entry, hi, hf, hg, hg2]

/-!
### Write sequence numbering in `dispatch_aio_write` (source lines 1913-1965)

`dispatch_aio_write` creates one log operation per image extent; lines
1950-1957 give each operation either `write_sequence_number = 0` with the
`sequenced` flag clear (persist-on-flush), or `++m_last_op_sequence_num` with
`sequenced = 1` (persist-on-write).  The function below returns the
per-operation pairs (sequence number, sequenced flag) for a request with `n`
extents, together with the final `m_last_op_sequence_num`.
-/

def assign_sequence_numbers (persist_on_flush : Bool)
    (last_op_sequence_num : Nat) : Nat → List (Nat × Bool) × Nat
  | 0 => ([], last_op_sequence_num)
  | n + 1 =>
    if persist_on_flush then
      let rest := assign_sequence_numbers persist_on_flush last_op_sequence_num n
      ((0, false) :: rest.1, rest.2)
    else
      let rest := assign_sequence_numbers persist_on_flush (last_op_sequence_num + 1) n
      ((last_op_sequence_num + 1, true) :: rest.1, rest.2)

/--
C7: in persist-on-flush mode every dispatched write operation carries
`write_sequence_number = 0` with the sequenced flag clear and the last-op
counter unchanged; in persist-on-write mode the operations carry the
successively incremented last-op sequence numbers, strictly increasing, all
flagged sequenced, and the counter advances by the operation count (so later
dispatches continue strictly above).
-/
theorem C7_write_sequence_numbers (last n : Nat) :
    assign_sequence_numbers true last n = (List.replicate n (0, false), last) ∧
    (assign_sequence_numbers false last n).1 =
      (List.range n).map (fun i => (last + i + 1, true)) ∧
    (assign_sequence_numbers false last n).2 = last + n ∧
    List.Pairwise (fun a b => a.1 < b.1)
      (assign_sequence_numbers false last n).1 := by
  have hmap : ∀ (m l : Nat), (assign_sequence_numbers false l m).1 =
      (List.range m).map (fun i => (l + i + 1, true)) := by
    intro m
    induction m with
    | zero => intro l; rfl
    | succ m ih =>
      intro l
      rw [List.range_succ_eq_map]
      simp only [assign_sequence_numbers, Bool.false_eq_true, if_false, ih,
        List.map_cons, List.map_map]
      have htail : List.map ((fun i => (l + i + 1, true)) ∘ Nat.succ) (List.range m) =
          List.map (fun i => (l + 1 + i + 1, true)) (List.range m) := by
        apply List.map_congr_left
        intro i _
        have h : l + (i + 1) + 1 = l + 1 + i + 1 := by omega
        simp [Function.comp, h]
      rw [htail]
  refine ⟨?_, hmap n last, ?_, ?_⟩
  · induction n generalizing last with
    | zero => rfl
    | succ n ih => simp [assign_sequence_numbers, ih, List.replicate_succ]
  · induction n generalizing last with
    | zero => rfl
    | succ n ih => simp [assign_sequence_numbers, ih]; omega
  · rw [hmap n last, List.pairwise_map]
    exact (List.pairwise_lt_range n).imp (fun h => by omega)

/-!
### Writeback completion of a dirty entry (source lines 3333-3354)

`construct_flush_entry_ctx` builds the completion `Context` for the
downstream write of one dirty log entry.  The state below carries the members
that completion touches: the dirty-entries list (entry ids, oldest first),
the two in-flight counters, the dirty-byte counter and the per-entry
`flushed`/`flushing` flags.  The returned `Option Int` is the error the
completion propagates to any caller: the lambda only updates bookkeeping and
calls `wake_up()`, so it is always `none`.
-/

structure WritebackState where
  dirty_log_entries : List Nat
  flush_ops_in_flight : Nat
  flush_bytes_in_flight : Nat
  bytes_dirty : Nat
  flushed : Nat → Bool
  flushing : Nat → Bool

/-- The flush-write completion action (source lines 3334-3354) for entry
`id` with `write_bytes = wb`, completed downstream with result `r`. -/
def flush_entry_completion (s : WritebackState) (id : Nat) (wb : Nat)
    (r : Int) : WritebackState × Option Int :=
  let s1 := { s with
    flush_ops_in_flight := s.flush_ops_in_flight - 1,
    flush_bytes_in_flight := s.flush_bytes_in_flight - wb,
    flushing := fun j => if j = id then false else s.flushing j }
  if r < 0 then
    ({ s1 with dirty_log_entries := id :: s1.dirty_log_entries }, none)
  else
    ({ s1 with
        flushed := fun j => if j = id then true else s1.flushed j,
        bytes_dirty := s1.bytes_dirty - wb }, none)

/--
C8: when the downstream writeback of a dirty entry fails, the entry is pushed
back at the head of the dirty list for retry through the same path, its
flushed flag is untouched and the dirty-byte count is not decremented; on
success the flushed flag is set and dirty bytes drop by the entry's
write_bytes.  In both cases no error is propagated to any caller.
-/
theorem C8_flush_error_requeues (s : WritebackState) (id : Nat) (wb : Nat)
    (r : Int) :
    (flush_entry_completion s id wb r).2 = none ∧
    (r < 0 →
      (flush_entry_completion s id wb r).1.dirty_log_entries =
        id :: s.dirty_log_entries ∧
      (flush_entry_completion s id wb r).1.flushed = s.flushed ∧
      (flush_entry_completion s id wb r).1.bytes_dirty = s.bytes_dirty) ∧
    (0 ≤ r →
      (flush_entry_completion s id wb r).1.flushed id = true ∧
      (flush_entry_completion s id wb r).1.bytes_dirty = s.bytes_dirty - wb ∧
      (flush_entry_completion s id wb r).1.dirty_log_entries =
        s.dirty_log_entries) := by
  refine ⟨?_, ?_, ?_⟩
  · unfold flush_entry_completion
    by_cases hr : r < 0 <;> simp [hr]
  · intro hr
    simp [flush_entry_completion, hr]
  · intro hr
    simp [flush_entry_completion, Int.not_lt.mpr hr]

/-- Witness for C8: a failed downstream write (result -5) re-queues entry 3
at the dirty-list head without touching the dirty-byte count. -/
theorem C8_flush_error_requeues_witness :
    (flush_entry_completion ⟨[9], 1, 512, 512, fun _ => false, fun _ => true⟩
        3 512 (-5)).1.dirty_log_entries = [3, 9] ∧
    (flush_entry_completion ⟨[9], 1, 512, 512, fun _ => false, fun _ => true⟩
        3 512 (-5)).1.bytes_dirty = 512 := by
  have h := C8_flush_error_requeues
    ⟨[9], 1, 512, 512, fun _ => false, fun _ => true⟩ 3 512 (-5)
  obtain ⟨-, herr, -⟩ := h
  obtain ⟨hd, -, hb⟩ := herr (by decide)
  exact ⟨by rw [hd], by rw [hb]⟩

/-!
### `aio_writesame` (source lines 2382-2415)

On a writable image, `aio_writesame` forwards the operation to the
downstream image-writeback cache with the caller's completion
(`m_image_writeback->aio_writesame(..., on_finish)`, line 2404), then builds
`total_bl` by appending the pattern until it covers `length` (lines
2406-2413) and re-submits the full range through the local write path with
the same completion (`aio_write(..., on_finish)`, line 2414).  The pattern
buffer is modelled as still holding the pattern after the downstream call
(whether the callee consumes the moved-from `bufferlist` is decided outside
this file).  The replication loop subtracts `bl.length()` from `left` each
iteration; it is modelled with saturating subtraction and an explicit guard
for an empty pattern, under which the C++ loop would not terminate, and the
source then asserts `length == total_bl.length()`.
-/

inductive WsAction
  | downstream_writesame (offset length : Nat) (data : List Nat) (on_finish : Nat)
  | local_write (offset length : Nat) (data : List Nat) (on_finish : Nat)
deriving DecidableEq, Repr

/-- The `total_bl` replication loop (source lines 2408-2412). -/
def replicate_pattern (bl : List Nat) (left : Nat) : List Nat :=
  if h0 : left = 0 then []
  else if hb : bl.length = 0 then []
  else bl ++ replicate_pattern bl (left - bl.length)
termination_by left
decreasing_by omega

/-- `aio_writesame` (source lines 2382-2415), as the list of write
submissions it issues. -/
def aio_writesame (writable : Bool) (offset length : Nat) (bl : List Nat)
    (on_finish : Nat) : List WsAction :=
  if !writable then []
  else
    [.downstream_writesame offset length bl on_finish,
     .local_write offset length (replicate_pattern bl length) on_finish]

theorem replicate_pattern_length (bl : List Nat) (hb : bl ≠ []) :
    ∀ left, bl.length ∣ left → (replicate_pattern bl left).length = left := by
  have hbl : bl.length ≠ 0 := by
    simpa using hb
  intro left
  induction left using Nat.strong_induction_on with
  | _ left ih =>
    intro hdvd
    by_cases h0 : left = 0
    · subst h0
      rw [replicate_pattern]
      simp
    · have hle : bl.length ≤ left :=
        Nat.le_of_dvd (Nat.pos_of_ne_zero h0) hdvd
      have hdvd2 : bl.length ∣ (left - bl.length) :=
        (Nat.dvd_sub' hdvd (dvd_refl _))
      have hlt : left - bl.length < left := by omega
      rw [replicate_pattern]
      rw [dif_neg h0, dif_neg hbl]
      rw [List.length_append, ih (left - bl.length) hlt hdvd2]
      omega

/--
C9: on a writable image, `aio_writesame` both forwards the operation to the
downstream image-writeback cache and re-submits the same range through the
local write path with the pattern replicated to the full length, passing the
same completion to both submissions, so the range is written twice.
-/
theorem C9_writesame_double_write (offset length : Nat) (bl : List Nat)
    (on_finish : Nat) (hb : bl ≠ []) (hdvd : bl.length ∣ length) :
    aio_writesame true offset length bl on_finish =
      [.downstream_writesame offset length bl on_finish,
       .local_write offset length (replicate_pattern bl length) on_finish] ∧
    (replicate_pattern bl length).length = length := by
  exact ⟨rfl, replicate_pattern_length bl hb length hdvd⟩

/-- Witness for C9: a 2-byte pattern over a 6-byte range is submitted
downstream once and through the local write path once, with the pattern
tripled, both carrying completion 5. -/
theorem C9_writesame_double_write_witness :
    aio_writesame true 100 6 [7, 8] 5 =
      [.downstream_writesame 100 6 [7, 8] 5,
       .local_write 100 6 (replicate_pattern [7, 8] 6) 5] ∧
    (replicate_pattern [7, 8] 6).length = 6 :=
  C9_writesame_double_write 100 6 [7, 8] 5 (by decide) (by decide)

/-!
### At-most-once user completion (source lines 1017-1045, 1999-2007,
1584-1592)

`C_BlockIORequest::complete_user_request` guards the call to
`user_req->complete` with an atomic compare-and-exchange on
`m_user_req_completed`.  `dispatch_aio_write` completes the user early in
persist-on-flush mode (line 2006); when the request later persists,
`C_BlockIORequest::finish` (line 1036) attempts again, and
`complete_write_req` (lines 1590-1592) attempts once more in
persist-on-write mode.  Because each compare-and-exchange is one atomic
step, any concurrent interleaving of attempts is some serial sequence of
them.
-/

structure UserRequestState where
  user_req_completed : Bool
  user_completions : Nat
deriving DecidableEq, Repr

/-- `complete_user_request` (source lines 1017-1026). -/
def complete_user_request (s : UserRequestState) : UserRequestState :=
  if s.user_req_completed then s
  else { user_req_completed := true, user_completions := s.user_completions + 1 }

/-- Any number of serialized completion attempts. -/
def attempt_many (s : UserRequestState) : Nat → UserRequestState
  | 0 => s
  | n + 1 => attempt_many (complete_user_request s) n

/-- The attempts actually made on one write request in each mode: early
completion at dispatch (persist-on-flush only), then `finish`, then
`complete_write_req` (persist-on-write only). -/
def write_request_attempts (persist_on_flush : Bool) : UserRequestState :=
  let s0 : UserRequestState := ⟨false, 0⟩
  let s1 := if persist_on_flush then complete_user_request s0 else s0
  let s2 := complete_user_request s1
  if persist_on_flush then s2 else complete_user_request s2

theorem attempt_many_of_completed (k : Nat) :
    ∀ n, attempt_many ⟨true, k⟩ n = ⟨true, k⟩ := by
  intro n
  induction n with
  | zero => rfl
  | succ n ih => simpa [attempt_many, complete_user_request] using ih

/--
C10: the user completion callback of a block IO request runs at most once:
any sequence of completion attempts from the initial state invokes it at
most once, and the concrete attempt sequences of a write request (early
dispatch acknowledgement plus final persist completion in persist-on-flush
mode; `finish` plus `complete_write_req` in persist-on-write mode) invoke it
exactly once, the second attempt being a no-op under the atomic
compare-and-exchange.
-/
theorem C10_user_completion_at_most_once :
    (∀ n, (attempt_many ⟨false, 0⟩ n).user_completions ≤ 1) ∧
    (∀ persist_on_flush,
      (write_request_attempts persist_on_flush).user_completions = 1) := by
  constructor
  · intro n
    cases n with
    | zero => decide
    | succ n =>
      rw [attempt_many]
      have h : complete_user_request ⟨false, 0⟩ = ⟨true, 1⟩ := rfl
      rw [h, attempt_many_of_completed]
  · intro persist_on_flush
    cases persist_on_flush <;> decide

/-!
### Ring accounting (source lines 1385-1386, 1727-1729, 2173-2174,
2924-2941, 2972-2986, 3471, 3524-3530)

The log is a ring of `m_total_log_entries` slots with head
`m_first_free_entry`, tail `m_first_valid_entry` and a free counter
`m_free_log_entries`; one slot is always kept empty.  The accounting
invariant is `free + ((first_free - first_valid) mod N) = N - 1`.
-/

structure RingState where
  free_log_entries : Nat
  first_free_entry : Nat
  first_valid_entry : Nat
  total_log_entries : Nat
deriving DecidableEq, Repr

/-- The number of occupied slots, `(first_free - first_valid) mod N` with
the subtraction taken modulo the ring size. -/
def ring_used (first_free first_valid total : Nat) : Nat :=
  (total + first_free - first_valid) % total

def ring_invariant (free first_free first_valid total : Nat) : Prop :=
  free + ring_used first_free first_valid total = total - 1

def RingInv (s : RingState) : Prop :=
  ring_invariant s.free_log_entries s.first_free_entry s.first_valid_entry
    s.total_log_entries

/-- Pool creation (source lines 2924-2941): the ring starts empty with
`first_free = first_valid = 0` and `free = N - 1` (one slot left empty). -/
def pool_create (n : Nat) : RingState := ⟨n - 1, 0, 0, n⟩

/-- The `m_free_log_entries` computation on re-open of an existing pool
(source lines 2976-2986). -/
def reopen_free_log_entries (total first_free first_valid : Nat) : Nat :=
  if first_free < first_valid then total - (first_valid - first_free) - 1
  else total - (first_free - first_valid) - 1

/-- Ring state after re-opening an existing pool (source lines 2972-2986). -/
def pool_reopen (total first_free first_valid : Nat) : RingState :=
  ⟨reopen_free_log_entries total first_free first_valid, first_free,
    first_valid, total⟩

/-- Log-slot allocation for an append batch of `b` operations: the
reservation decrements `m_free_log_entries` by `b` (source lines 1727-1729,
2173-2174) and slot assignment under the append lock advances
`m_first_free_entry` by `b` modulo `N` (source lines 1384-1386). -/
def alloc_batch (s : RingState) (b : Nat) : RingState :=
  if b ≤ s.free_log_entries then
    { s with
      free_log_entries := s.free_log_entries - b,
      first_free_entry := (s.first_free_entry + b) % s.total_log_entries }
  else s

/-- Retirement of `c` contiguous oldest entries: `m_first_valid_entry`
advances by `c` modulo `N` (source line 3471) and `m_free_log_entries` grows
by `c` (source line 3530). -/
def retire_ring (s : RingState) (c : Nat) : RingState :=
  if c ≤ ring_used s.first_free_entry s.first_valid_entry s.total_log_entries
  then
    { s with
      free_log_entries := s.free_log_entries + c,
      first_valid_entry := (s.first_valid_entry + c) % s.total_log_entries }
  else s

theorem mod_small_cases (x n : Nat) (hn : 0 < n) (h : x < 2 * n) :
    x % n = if x < n then x else x - n := by
  by_cases hx : x < n
  · rw [if_pos hx, Nat.mod_eq_of_lt hx]
  · rw [if_neg hx, Nat.mod_eq_sub_mod (by omega), Nat.mod_eq_of_lt (by omega)]

theorem ring_used_closed (ffe fve n : Nat) (h1 : ffe < n) (h2 : fve < n) :
    ring_used ffe fve n = if fve ≤ ffe then ffe - fve else n - (fve - ffe) := by
  unfold ring_used
  rw [mod_small_cases _ _ (by omega) (by omega)]
  split_ifs <;> omega

theorem pool_create_ring_invariant (n : Nat) (hn : 0 < n) :
    RingInv (pool_create n) := by
  unfold RingInv ring_invariant pool_create ring_used
  simp [Nat.mod_self]

theorem pool_reopen_no_wrap_ring_invariant (total ffe fve : Nat)
    (h1 : ffe < total) (h2 : fve ≤ ffe) : RingInv (pool_reopen total ffe fve) := by
  unfold RingInv ring_invariant pool_reopen reopen_free_log_entries
  dsimp only
  rw [ring_used_closed _ _ _ h1 (by omega)]
  split_ifs <;> omega

theorem alloc_batch_ring_invariant (s : RingState) (b : Nat)
    (h1 : s.first_free_entry < s.total_log_entries)
    (h2 : s.first_valid_entry < s.total_log_entries)
    (hinv : RingInv s) : RingInv (alloc_batch s b) := by
  unfold RingInv ring_invariant at hinv ⊢
  unfold alloc_batch
  by_cases hb : b ≤ s.free_log_entries
  · rw [if_pos hb]
    dsimp only
    rw [ring_used_closed _ _ _ h1 h2] at hinv
    rw [ring_used_closed _ _ _ (Nat.mod_lt _ (by omega)) h2]
    rw [mod_small_cases _ _ (by omega) (by split_ifs at hinv <;> omega)]
    split_ifs at hinv ⊢ <;> omega
  · rw [if_neg hb]
    exact hinv

theorem retire_ring_invariant (s : RingState) (c : Nat)
    (h1 : s.first_free_entry < s.total_log_entries)
    (h2 : s.first_valid_entry < s.total_log_entries)
    (hinv : RingInv s) : RingInv (retire_ring s c) := by
  unfold RingInv ring_invariant at hinv ⊢
  unfold retire_ring
  by_cases hc : c ≤ ring_used s.first_free_entry s.first_valid_entry
      s.total_log_entries
  · rw [if_pos hc]
    dsimp only
    rw [ring_used_closed _ _ _ h1 h2] at hinv hc
    rw [ring_used_closed _ _ _ h1 (Nat.mod_lt _ (by omega))]
    rw [mod_small_cases _ _ (by omega) (by split_ifs at hinv hc <;> omega)]
    split_ifs at hinv hc ⊢ <;> omega
  · rw [if_neg hc]
    exact hinv

/--
C5: the ring-accounting invariant
`free + ((first_free - first_valid) mod N) = N - 1` is established by pool
creation and preserved by batch allocation and retirement
(`pool_create_ring_invariant`, `alloc_batch_ring_invariant`,
`retire_ring_invariant` above), but the re-open path breaks it: for a
wrapped ring (`first_free < first_valid`) line 2981 computes
`N - (first_valid - first_free) - 1` where the invariant (and the comment at
lines 2977-2980, which says this state has zero free entries when
`first_valid == first_free + 1`) requires `(first_valid - first_free) - 1`.
Re-opening a 10-slot pool with `first_free = 4`, `first_valid = 5` yields
`free_log_entries = 8`, violating the invariant, which demands 0.
-/
theorem C5_reopen_wrap_breaks_ring_invariant :
    pool_reopen 10 4 5 =
      { free_log_entries := 8, first_free_entry := 4, first_valid_entry := 5,
        total_log_entries := 10 } ∧
    ¬ RingInv (pool_reopen 10 4 5) ∧
    ring_invariant 0 4 5 10 := by
  refine ⟨by decide, ?_, by unfold ring_invariant ring_used; decide⟩
  unfold RingInv ring_invariant pool_reopen ring_used
  decide

/-!
### Recovery: `load_existing_entries` (source lines 2735-2873)

The scan walks slots `[first_valid_entry, first_free_entry)`.  A pmem log
entry is a sync-point entry or a write entry (anything else asserts); only
the kind flag and the sync generation matter to the claims here.  The scan
accumulates `sync_point_entries` (modelled by the list of generations with a
sync-point entry) and `missing_sync_points` (a `std::map`, modelled as a
sorted duplicate-free list): a write whose generation has no sync-point
entry yet records it missing (line 2790-2792), and a later sync-point entry
erases it (line 2772).  `m_current_sync_gen` tracks the last sync-point
generation seen (line 2778, starting from 0 on a re-open).  After the scan,
each missing generation is created in ascending order through
`init_flush_new_sync_point`, asserting it equals `m_current_sync_gen + 1`
before and `m_current_sync_gen` after (lines 2816-2822); the assertion
failures are modelled as `none`.
-/

structure PmemEntry where
  is_sync_point : Bool
  sync_gen_number : Nat
deriving DecidableEq, Repr

/-- Ordered insertion without duplicates: `missing_sync_points[g] = true` on
a `std::map` keyed by generation. -/
def sorted_insert (g : Nat) : List Nat → List Nat
  | [] => [g]
  | x :: rest =>
    if g < x then g :: x :: rest
    else if g = x then x :: rest
    else x :: sorted_insert g rest

structure ScanState where
  sync_point_gens : List Nat
  missing_sync_points : List Nat
  current_sync_gen : Nat
deriving DecidableEq, Repr

/-- One loop iteration of the first pass of `load_existing_entries` (source
lines 2761-2809), restricted to the members the claims are about. -/
def scan_step (s : ScanState) (e : PmemEntry) : ScanState :=
  if e.is_sync_point then
    { sync_point_gens := e.sync_gen_number :: s.sync_point_gens,
      missing_sync_points :=
        s.missing_sync_points.filter (fun g => g ≠ e.sync_gen_number),
      current_sync_gen := e.sync_gen_number }
  else
    if e.sync_gen_number ∈ s.sync_point_gens then s
    else
      { s with missing_sync_points :=
          sorted_insert e.sync_gen_number s.missing_sync_points }

/-- The whole first pass, from the state at entry to
`load_existing_entries`. -/
def load_scan (entries : List PmemEntry) : ScanState :=
  entries.foldl scan_step ⟨[], [], 0⟩

/-- The generations of all sync points reachable from the chain state (the
current sync point and its earlier chain). -/
def chain_gens (s : SyncPointChainState) : List Nat :=
  (match s.current with
   | none => []
   | some c => [c.gen]) ++ s.earlier.map SyncPt.gen

/-- The creation loop for missing sync points (source lines 2816-2822): for
each missing generation in ascending order, assert it is
`m_current_sync_gen + 1`, create the sync point through
`init_flush_new_sync_point`, and assert the generation now matches.  Returns
the final chain state and the generations actually assigned to the created
sync points; `none` models an assertion failure. -/
def create_missing_sync_points :
    List Nat → SyncPointChainState → Option (SyncPointChainState × List Nat)
  | [], s => some (s, [])
  | g :: rest, s =>
    if g = s.current_sync_gen + 1 then
      let s1 := init_flush_new_sync_point s
      if g = s1.current_sync_gen then
        match create_missing_sync_points rest s1 with
        | some (s2, gs) => some (s2, s1.current_sync_gen :: gs)
        | none => none
      else none
    else none

theorem mem_sorted_insert (g a : Nat) (l : List Nat) :
    a ∈ sorted_insert g l ↔ a = g ∨ a ∈ l := by
  induction l with
  | nil => simp [sorted_insert]
  | cons x rest ih =>
    unfold sorted_insert
    by_cases h1 : g < x
    · simp [h1]
    · by_cases h2 : g = x
      · subst h2
        simp [h1]
      · simp [h1, h2, ih]
        tauto

theorem sorted_sorted_insert (g : Nat) (l : List Nat)
    (h : List.Sorted (· < ·) l) :
    List.Sorted (· < ·) (sorted_insert g l) := by
  induction l with
  | nil => simp [sorted_insert]
  | cons x rest ih =>
    rw [List.sorted_cons] at h
    obtain ⟨hx, hrest⟩ := h
    unfold sorted_insert
    by_cases h1 : g < x
    · rw [if_pos h1, List.sorted_cons]
      refine ⟨?_, List.sorted_cons.mpr ⟨hx, hrest⟩⟩
      intro b hb
      rcases List.mem_cons.mp hb with rfl | hb2
      · exact h1
      · exact Nat.lt_trans h1 (hx b hb2)
    · by_cases h2 : g = x
      · rw [if_neg h1, if_pos h2]
        exact List.sorted_cons.mpr ⟨hx, hrest⟩
      · rw [if_neg h1, if_neg h2, List.sorted_cons]
        refine ⟨?_, ih hrest⟩
        intro b hb
        rcases (mem_sorted_insert g b rest).mp hb with rfl | hb2
        · omega
        · exact hx b hb2

/-- Invariant of the recovery scan: the sync-point generation list and the
missing list track exactly the sync-point entries seen and the write
generations with no sync-point entry, and the missing list stays sorted. -/
theorem scan_fold_spec (entries : List PmemEntry) :
    ∀ (s : ScanState) (SP W : Nat → Prop),
      (∀ g, g ∈ s.sync_point_gens ↔ SP g) →
      (∀ g, g ∈ s.missing_sync_points ↔ (W g ∧ ¬SP g)) →
      List.Sorted (· < ·) s.missing_sync_points →
      (∀ g, g ∈ (entries.foldl scan_step s).sync_point_gens ↔
        (SP g ∨ ∃ e ∈ entries, e.is_sync_point = true ∧ e.sync_gen_number = g)) ∧
      (∀ g, g ∈ (entries.foldl scan_step s).missing_sync_points ↔
        ((W g ∨ ∃ e ∈ entries, e.is_sync_point = false ∧ e.sync_gen_number = g) ∧
         ¬(SP g ∨ ∃ e ∈ entries, e.is_sync_point = true ∧ e.sync_gen_number = g))) ∧
      List.Sorted (· < ·) (entries.foldl scan_step s).missing_sync_points := by
  induction entries with
  | nil =>
    intro s SP W hsp hmiss hsorted
    simp only [List.foldl_nil]
    refine ⟨?_, ?_, hsorted⟩ <;> intro g <;> simp [hsp, hmiss]
  | cons e rest ih =>
    intro s SP W hsp hmiss hsorted
    rw [List.foldl_cons]
    by_cases hk : e.is_sync_point = true
    · have h := ih (scan_step s e)
        (fun g => SP g ∨ e.sync_gen_number = g) W
        (by
          intro g
          simp [scan_step, hk, hsp]
          tauto)
        (by
          intro g
          simp [scan_step, hk, hmiss]
          tauto)
        (by
          simp only [scan_step, hk, if_true]
          exact List.Sorted.filter _ hsorted)
      refine ⟨?_, ?_, h.2.2⟩
      · intro g
        rw [h.1 g]
        simp [hk]
        tauto
      · intro g
        rw [h.2.1 g]
        simp [hk]
        tauto
    · have hk2 : e.is_sync_point = false := by
        simpa using hk
      by_cases hw : e.sync_gen_number ∈ s.sync_point_gens
      · have h := ih (scan_step s e)
          SP (fun g => W g ∨ e.sync_gen_number = g)
          (by
            intro g
            simp [scan_step, hk2, hw, hsp])
          (by
            intro g
            simp only [scan_step, hk2, Bool.false_eq_true, if_false, if_pos hw]
            rw [hmiss g]
            constructor
            · tauto
            · rintro ⟨hWg | rfl, hnsp⟩
              · exact ⟨hWg, hnsp⟩
              · exact absurd ((hsp _).mp hw) hnsp)
          (by simpa [scan_step, hk2, hw] using hsorted)
        refine ⟨?_, ?_, h.2.2⟩
        · intro g
          rw [h.1 g]
          simp [hk2]
        · intro g
          rw [h.2.1 g]
          simp [hk2]
          tauto
      · have h := ih (scan_step s e)
          SP (fun g => W g ∨ e.sync_gen_number = g)
          (by
            intro g
            simp [scan_step, hk2, hw, hsp])
          (by
            intro g
            simp only [scan_step, hk2, Bool.false_eq_true, if_false, if_neg hw]
            rw [mem_sorted_insert, hmiss g]
            constructor
            · rintro (rfl | ⟨hWg, hnsp⟩)
              · exact ⟨Or.inr rfl, fun hspg => hw ((hsp _).mpr hspg)⟩
              · exact ⟨Or.inl hWg, hnsp⟩
            · rintro ⟨hWg | rfl, hnsp⟩
              · exact Or.inr ⟨hWg, hnsp⟩
              · exact Or.inl rfl)
          (by
            simp only [scan_step, hk2, Bool.false_eq_true, if_false, if_neg hw]
            exact sorted_sorted_insert _ _ hsorted)
        refine ⟨?_, ?_, h.2.2⟩
        · intro g
          rw [h.1 g]
          simp [hk2]
        · intro g
          rw [h.2.1 g]
          simp [hk2]
          tauto

theorem init_flush_new_sync_point_gen (s : SyncPointChainState) :
    (init_flush_new_sync_point s).current_sync_gen = s.current_sync_gen + 1 := by
  unfold init_flush_new_sync_point flush_new_sync_point new_sync_point
  cases hc : s.current <;> simp [hc]

theorem chain_gens_init_flush (s : SyncPointChainState) :
    chain_gens (init_flush_new_sync_point s) =
      (s.current_sync_gen + 1) :: chain_gens s := by
  unfold init_flush_new_sync_point flush_new_sync_point new_sync_point chain_gens
  cases hc : s.current <;> simp [hc]

/-- The creation loop assigns exactly the missing generations, in order,
each creation going through `init_flush_new_sync_point` and advancing the
sync generation by one; every created generation has a sync point in the
final chain state. -/
theorem create_missing_spec :
    ∀ (ms : List Nat) (s s2 : SyncPointChainState) (gs : List Nat),
      create_missing_sync_points ms s = some (s2, gs) →
      gs = ms ∧
      s2.current_sync_gen = s.current_sync_gen + ms.length ∧
      (∀ g ∈ ms, g ∈ chain_gens s2) ∧
      (∀ g ∈ chain_gens s, g ∈ chain_gens s2) := by
  intro ms
  induction ms with
  | nil =>
    intro s s2 gs h
    unfold create_missing_sync_points at h
    obtain ⟨rfl, rfl⟩ : s = s2 ∧ [] = gs := by
      constructor <;> [exact congrArg Prod.fst (Option.some.inj h);
        exact congrArg Prod.snd (Option.some.inj h)]
    exact ⟨rfl, rfl, by simp, fun g hg => hg⟩
  | cons g rest ih =>
    intro s s2 gs h
    unfold create_missing_sync_points at h
    by_cases h1 : g = s.current_sync_gen + 1
    · rw [if_pos h1] at h
      have hgen := init_flush_new_sync_point_gen s
      rw [if_pos (by rw [hgen]; exact h1)] at h
      rcases h2 : create_missing_sync_points rest (init_flush_new_sync_point s)
        with - | p
      · rw [h2] at h
        simp at h
      · rw [h2] at h
        obtain ⟨s2', gs'⟩ := p
        obtain ⟨hs2, hgs⟩ : s2' = s2 ∧
            (init_flush_new_sync_point s).current_sync_gen :: gs' = gs := by
          constructor <;> [exact congrArg Prod.fst (Option.some.inj h);
            exact congrArg Prod.snd (Option.some.inj h)]
        subst hs2
        obtain ⟨hgs', hglen, hmem, hmono⟩ := ih _ _ _ h2
        refine ⟨?_, ?_, ?_, ?_⟩
        · rw [← hgs, hgs', hgen, ← h1]
        · rw [hglen, hgen]
          simp only [List.length_cons]
          omega
        · intro x hx
          rcases List.mem_cons.mp hx with rfl | hx2
          · apply hmono
            rw [chain_gens_init_flush, ← h1]
            simp
          · exact hmem x hx2
        · intro x hx
          apply hmono
          rw [chain_gens_init_flush]
          simp [hx]
    · rw [if_neg h1] at h
      simp at h

/--
C6: after the recovery scan of the existing log entries, the missing
generations are exactly those referenced by some write entry but carried by
no sync-point entry, kept in ascending order; for each of them, in that
order, a synthetic sync point is created through the same
`init_flush_new_sync_point` / `flush_new_sync_point` path used at runtime,
and the generation assigned equals the missing one (the recorded assignments
`gs` coincide with the missing list).  Afterwards every write entry's
generation has a sync point to link to: either a sync-point entry seen in
the log or a created one.
-/
theorem C6_recovery_missing_sync_points (entries : List PmemEntry)
    (s2 : SyncPointChainState) (gs : List Nat)
    (hsucc : create_missing_sync_points (load_scan entries).missing_sync_points
      ⟨(load_scan entries).current_sync_gen, none, []⟩ = some (s2, gs)) :
    List.Sorted (· < ·) (load_scan entries).missing_sync_points ∧
    (∀ g, g ∈ (load_scan entries).missing_sync_points ↔
      ((∃ e ∈ entries, e.is_sync_point = false ∧ e.sync_gen_number = g) ∧
       ¬(∃ e ∈ entries, e.is_sync_point = true ∧ e.sync_gen_number = g))) ∧
    gs = (load_scan entries).missing_sync_points ∧
    (∀ g ∈ gs, g ∈ chain_gens s2) ∧
    (∀ e ∈ entries, e.is_sync_point = false →
      e.sync_gen_number ∈ (load_scan entries).sync_point_gens ∨
      e.sync_gen_number ∈ gs) := by
  unfold load_scan at hsucc ⊢
  have hscan := scan_fold_spec entries ⟨[], [], 0⟩ (fun _ => False) (fun _ => False)
    (by intro g; simp) (by intro g; simp) (by simp)
  obtain ⟨hsp, hmiss, hsorted⟩ := hscan
  obtain ⟨hgs, -, hmem, -⟩ := create_missing_spec _ _ _ _ hsucc
  refine ⟨hsorted, ?_, hgs, fun g hg => hmem g (hgs ▸ hg), ?_⟩
  · intro g
    rw [hmiss g]
    simp
  · intro e he hw
    by_cases hspg : ∃ x ∈ entries, x.is_sync_point = true ∧
        x.sync_gen_number = e.sync_gen_number
    · left
      rw [hsp]
      simp [hspg]
    · right
      rw [hgs]
      rw [hmiss]
      simp only [false_or]
      exact ⟨⟨e, he, hw, rfl⟩, by simpa using hspg⟩

/-- Witness for C6, scenario S4 of the specification: a log holding writes of
generation 3, a sync point 3 and a write of generation 4 recovers by
fabricating sync point 4. -/
theorem C6_recovery_missing_sync_points_witness :
    ([4] : List Nat) =
      (load_scan [⟨false, 3⟩, ⟨false, 3⟩, ⟨true, 3⟩, ⟨false, 4⟩]).missing_sync_points ∧
    4 ∈ chain_gens ⟨4, some ⟨4, 0, false, []⟩, []⟩ := by
  have h := C6_recovery_missing_sync_points
    [⟨false, 3⟩, ⟨false, 3⟩, ⟨true, 3⟩, ⟨false, 4⟩]
    ⟨4, some ⟨4, 0, false, []⟩, []⟩ [4] (by rfl)
  exact ⟨h.2.2.1, h.2.2.2.1 4 (by simp)⟩

/-!
### Retirement: `remove_log_entry_locked`, `can_retire_entry` and
`retire_entries` (source lines 374-387, 3422-3438, 3445-3551)

A log entry carries the fields retirement reads: its ring index, kind,
completion and flushing state, reader count, block extent and (for writes)
its data buffer handle.  The write-log map of the first section indexes log
entries by their ring index.  The retirement state bundles the global log
list (oldest first), the map, the ring counters, the persistent root's
`first_valid_entry` and the multiset of freed data buffers.  The asserts of
the selection loop (`entry->log_entry_index == first_valid_entry`, line
3470) are modelled as `Option`: `none` is an assertion failure.
-/

theorem nonoverlap_mem_split {l : List WriteLogMapEntry} {h : WriteLogMapEntry}
    (hno : Nonoverlapping l) (hm : h ∈ l) :
    ∃ l₁ l₂, l = l₁ ++ h :: l₂ ∧
      (∀ x ∈ l₁, overlaps h.block_extent x.block_extent = false) := by
  induction l with
  | nil => simp at hm
  | cons a t ih =>
    unfold Nonoverlapping at hno
    rw [List.pairwise_cons] at hno
    obtain ⟨ha, ht⟩ := hno
    rcases List.mem_cons.mp hm with rfl | hmt
    · exact ⟨[], t, rfl, by simp⟩
    · obtain ⟨l₁, l₂, rfl, h₁⟩ := ih ht hmt
      refine ⟨a :: l₁, l₂, rfl, ?_⟩
      intro x hx
      rcases List.mem_cons.mp hx with rfl | hxl₁
      · rw [overlaps_symm]
        exact ha h (by simp)
      · exact h₁ x hxl₁

theorem nonoverlapping_nodup {l : List WriteLogMapEntry}
    (hno : Nonoverlapping l) (hwf : AllWF l) : l.Nodup := by
  unfold Nonoverlapping at hno
  refine hno.imp_of_mem ?_
  intro a b ha _ hab
  intro heq
  subst heq
  rw [overlaps_self (hwf a ha)] at hab
  simp at hab

/-- Removing one located map entry under the no-overlap invariant: exactly
that entry leaves the list and exactly its log entry's counter drops. -/
theorem remove_map_entry_spec {t : WriteLogMapState} {hit : WriteLogMapEntry}
    (hno : Nonoverlapping t.entries) (hwf : AllWF t.entries)
    (hmem : hit ∈ t.entries) :
    ∃ l₁ l₂, t.entries = l₁ ++ hit :: l₂ ∧
      (remove_map_entry_locked t hit).entries = l₁ ++ l₂ ∧
      (remove_map_entry_locked t hit).refs = ref_dec t.refs hit.log_entry := by
  obtain ⟨l₁, l₂, hsplit, h₁⟩ := nonoverlap_mem_split hno hmem
  have hself : overlaps hit.block_extent hit.block_extent = true :=
    overlaps_self (hwf hit hmem)
  have hfind : find_map_entry t.entries hit.block_extent = some hit := by
    rw [hsplit]; exact find_map_entry_split h₁ hself
  have hrep : map_replace t.entries hit.block_extent [] = l₁ ++ l₂ := by
    rw [hsplit]
    have hx : map_replace (l₁ ++ hit :: l₂) hit.block_extent [] = l₁ ++ [] ++ l₂ :=
      map_replace_split h₁ hself
    simpa using hx
  refine ⟨l₁, l₂, hsplit, ?_, ?_⟩ <;>
    simp [remove_map_entry_locked, hfind, hrep]

/-- `remove_log_entry_locked` (source lines 374-387): remove from the map
every entry that refers to the given log entry, by scanning the map entries
overlapping the log entry's extent. -/
def remove_log_entry_locked (s : WriteLogMapState) (id : Nat)
    (ext : BlockExtent) : WriteLogMapState :=
  (find_map_entries_locked s ext).foldl
    (fun t hit => if hit.log_entry = id then remove_map_entry_locked t hit else t) s

/-- The removal fold of `remove_log_entry_locked`: invariants are preserved,
the map only shrinks, and afterwards no surviving map entry refers to `id`
provided every map entry referring to `id` was among the hits. -/
theorem remove_log_entry_fold (id : Nat) :
    ∀ (hits : List WriteLogMapEntry) (t : WriteLogMapState),
      Nonoverlapping t.entries → AllWF t.entries → RefsConsistent t →
      hits.Nodup →
      (∀ x ∈ hits, x ∈ t.entries) →
      (∀ me ∈ t.entries, me.log_entry = id → me ∈ hits) →
      Nonoverlapping (hits.foldl
        (fun t hit => if hit.log_entry = id then remove_map_entry_locked t hit
          else t) t).entries ∧
      AllWF (hits.foldl
        (fun t hit => if hit.log_entry = id then remove_map_entry_locked t hit
          else t) t).entries ∧
      RefsConsistent (hits.foldl
        (fun t hit => if hit.log_entry = id then remove_map_entry_locked t hit
          else t) t) ∧
      (∀ me ∈ (hits.foldl
        (fun t hit => if hit.log_entry = id then remove_map_entry_locked t hit
          else t) t).entries, me ∈ t.entries) ∧
      (∀ me ∈ (hits.foldl
        (fun t hit => if hit.log_entry = id then remove_map_entry_locked t hit
          else t) t).entries, me.log_entry ≠ id) := by
  intro hits
  induction hits with
  | nil =>
    intro t hno hwf hrc _ _ hall
    simp only [List.foldl_nil]
    refine ⟨hno, hwf, hrc, fun me hme => hme, ?_⟩
    intro me hme hid
    simpa using hall me hme hid
  | cons h rest ih =>
    intro t hno hwf hrc hnd hsub hall
    rw [List.foldl_cons]
    rw [List.nodup_cons] at hnd
    obtain ⟨hh, hndrest⟩ := hnd
    by_cases hhid : h.log_entry = id
    · rw [if_pos hhid]
      obtain ⟨l₁, l₂, hsplit, hent, hrefs⟩ :=
        remove_map_entry_spec hno hwf (hsub h (by simp))
      have hnodup : t.entries.Nodup := nonoverlapping_nodup hno hwf
      have hnot : h ∉ l₁ ++ l₂ := by
        rw [hsplit] at hnodup
        intro hcon
        rcases List.mem_append.mp hcon with hc | hc
        · exact (List.disjoint_of_nodup_append hnodup) hc (by simp)
        · rw [List.nodup_append] at hnodup
          have := hnodup.2.1
          rw [List.nodup_cons] at this
          exact this.1 hc
      have hno2 : Nonoverlapping (remove_map_entry_locked t h).entries := by
        unfold Nonoverlapping at hno ⊢
        rw [hent]
        rw [hsplit, List.pairwise_append, List.pairwise_cons] at hno
        rw [List.pairwise_append]
        exact ⟨hno.1, hno.2.1.2, fun a ha b hb => hno.2.2 a ha b (by simp [hb])⟩
      have hwf2 : AllWF (remove_map_entry_locked t h).entries := by
        rw [hent]
        intro x hx
        refine hwf x ?_
        rw [hsplit]
        rcases List.mem_append.mp hx with hc | hc <;> simp [hc]
      have hrc2 : RefsConsistent (remove_map_entry_locked t h) := by
        intro j
        rw [hrefs, hent]
        have := hrc j
        rw [hsplit] at this
        unfold ref_dec
        simp only [List.countP_append, List.countP_cons] at this ⊢
        by_cases hj : j = h.log_entry
        · subst hj
          simp only [beq_self_eq_true, if_true, if_pos rfl] at this ⊢
          omega
        · have hj2 : (h.log_entry == j) = false := by
            simp only [beq_eq_false_iff_ne, ne_eq]
            exact fun hx => hj hx.symm
          simp only [hj2, Bool.false_eq_true, if_neg hj, if_false] at this ⊢
          omega
      have hsub2 : ∀ x ∈ rest, x ∈ (remove_map_entry_locked t h).entries := by
        intro x hx
        rw [hent]
        have hxr : x ∈ t.entries := hsub x (by simp [hx])
        rw [hsplit] at hxr
        rcases List.mem_append.mp hxr with hc | hc
        · exact List.mem_append.mpr (Or.inl hc)
        · rcases List.mem_cons.mp hc with rfl | hc2
          · exact absurd hx hh
          · exact List.mem_append.mpr (Or.inr hc2)
      have hall2 : ∀ me ∈ (remove_map_entry_locked t h).entries,
          me.log_entry = id → me ∈ rest := by
        intro me hme hid
        have hmet : me ∈ t.entries := by
          rw [hsplit]
          rw [hent] at hme
          rcases List.mem_append.mp hme with hc | hc <;> simp [hc]
        have := hall me hmet hid
        rcases List.mem_cons.mp this with rfl | hc
        · rw [hent] at hme
          exact absurd hme hnot
        · exact hc
      obtain ⟨ha2, hb2, hc2', hd2, he2⟩ :=
        ih (remove_map_entry_locked t h) hno2 hwf2 hrc2 hndrest hsub2 hall2
      refine ⟨ha2, hb2, hc2', ?_, he2⟩
      intro me hme
      have hme2 := hd2 me hme
      rw [hent] at hme2
      rw [hsplit]
      rcases List.mem_append.mp hme2 with hx | hx <;> simp [hx]
    · rw [if_neg hhid]
      refine ih t hno hwf hrc hndrest (fun x hx => hsub x (by simp [hx])) ?_
      intro me hme hid
      rcases List.mem_cons.mp (hall me hme hid) with rfl | hc
      · exact absurd hid hhid
      · exact hc

/-- `remove_log_entry_locked` behaviour: map invariants are preserved, the
map only shrinks, and no surviving map entry refers to the removed log entry,
provided every map entry referring to it lies inside its block extent (as
every overwrite remainder does). -/
theorem remove_log_entry_spec (m : WriteLogMapState) (id : Nat)
    (ext : BlockExtent)
    (hno : Nonoverlapping m.entries) (hwf : AllWF m.entries)
    (hrc : RefsConsistent m)
    (hlink : ∀ me ∈ m.entries, me.log_entry = id →
      ext.block_start ≤ me.block_extent.block_start ∧
      me.block_extent.block_end ≤ ext.block_end) :
    Nonoverlapping (remove_log_entry_locked m id ext).entries ∧
    AllWF (remove_log_entry_locked m id ext).entries ∧
    RefsConsistent (remove_log_entry_locked m id ext) ∧
    (∀ me ∈ (remove_log_entry_locked m id ext).entries, me ∈ m.entries) ∧
    (∀ me ∈ (remove_log_entry_locked m id ext).entries, me.log_entry ≠ id) := by
  unfold remove_log_entry_locked
  refine remove_log_entry_fold id (find_map_entries_locked m ext) m hno hwf hrc
    ?_ ?_ ?_
  · exact (nonoverlapping_nodup hno hwf).filter _
  · intro x hx
    exact (List.mem_filter.mp hx).1
  · intro me hme hid
    refine List.mem_filter.mpr ⟨hme, ?_⟩
    have hsubx := hlink me hme hid
    have hwfme := hwf me hme
    unfold extwf at hwfme
    rw [overlaps_iff]
    omega

/-- The in-memory log entry fields retirement reads (`GenericLogEntry` /
`WriteLogEntry`). -/
structure RetireLogEntry where
  log_entry_index : Nat
  is_write : Bool
  completed : Bool
  flushed : Bool
  flushing : Bool
  reader_count : Nat
  block_extent : BlockExtent
  write_data : Nat
deriving DecidableEq, Repr

/-- `can_retire_entry` (source lines 3422-3438). -/
def can_retire_entry (e : RetireLogEntry) : Bool :=
  if !e.completed then false
  else if e.is_write then e.flushed && e.reader_count == 0
  else true

theorem can_retire_entry_eq (e : RetireLogEntry) :
    can_retire_entry e = true ↔
      e.completed = true ∧
      (e.is_write = true → e.flushed = true ∧ e.reader_count = 0) := by
  unfold can_retire_entry
  by_cases hc : e.completed <;> by_cases hw : e.is_write <;>
    simp [hc, hw, Nat.beq_eq_true_eq]

/-- The selection loop of `retire_entries` (source lines 3460-3484): pop
eligible oldest entries while the budget lasts, checking each one's ring
index against `first_valid_entry` (the assert at line 3470, modelled as
`none` on failure), advancing `first_valid_entry` modulo the ring size and
removing each retired write from the write-log map.  Returns the retired
prefix, the remaining list, the advanced index and the updated map. -/
def retire_loop (n : Nat) :
    List RetireLogEntry → Nat → Nat → WriteLogMapState →
    Option (List RetireLogEntry × List RetireLogEntry × Nat × WriteLogMapState)
  | [], _, fve, m => some ([], [], fve, m)
  | e :: rest, budget, fve, m =>
    if budget = 0 then some ([], e :: rest, fve, m)
    else if can_retire_entry e then
      if e.log_entry_index = fve then
        match retire_loop n rest (budget - 1) ((fve + 1) % n)
          (if e.is_write then
            remove_log_entry_locked m e.log_entry_index e.block_extent
          else m) with
        | some (ret, rem, fve2, m2) => some (e :: ret, rem, fve2, m2)
        | none => none
      else none
    else some ([], e :: rest, fve, m)

structure RetireState where
  log_entries : List RetireLogEntry
  blocks_to_log_entries : WriteLogMapState
  first_valid_entry : Nat
  total_log_entries : Nat
  free_log_entries : Nat
  root_first_valid_entry : Nat
  freed_buffers : List Nat

/-- `retire_entries(frees_per_tx)` (source lines 3445-3551): run the
selection loop under the retire lock; if nothing was selected return false;
otherwise one PMEM transaction sets `root.first_valid_entry` to the advanced
index and frees every retired write's data buffer (`TX_FREE`), then the
in-memory `m_first_valid_entry` and `m_free_log_entries` are updated. -/
def retire_entries (s : RetireState) (frees_per_tx : Nat) :
    Option (RetireState × Bool) :=
  match retire_loop s.total_log_entries s.log_entries frees_per_tx
    s.first_valid_entry s.blocks_to_log_entries with
  | none => none
  | some (retiring, remaining, fve2, m2) =>
    if retiring.length = 0 then some (s, false)
    else some
      ({ log_entries := remaining,
         blocks_to_log_entries := m2,
         first_valid_entry := fve2,
         total_log_entries := s.total_log_entries,
         free_log_entries := s.free_log_entries + retiring.length,
         root_first_valid_entry := fve2,
         freed_buffers := s.freed_buffers ++
           (retiring.filter (fun e => e.is_write)).map
             (fun e => e.write_data) }, true)

/-- Everything the selection loop guarantees: the retired entries are an
eligible prefix of the log list, at most the budget long, their ring indices
run contiguously from `first_valid_entry` modulo the ring size (enforced by
the assert), `first_valid_entry` advances by their count, the map invariants
survive, the map only shrinks, and no surviving map entry refers to a
retired write. -/
theorem retire_loop_spec (n : Nat) :
    ∀ (l : List RetireLogEntry) (budget fve : Nat) (m : WriteLogMapState)
      (ret rem : List RetireLogEntry) (fve2 : Nat) (m2 : WriteLogMapState),
      fve < n →
      Nonoverlapping m.entries → AllWF m.entries → RefsConsistent m →
      (∀ me ∈ m.entries, ∀ e ∈ l, me.log_entry = e.log_entry_index →
        e.block_extent.block_start ≤ me.block_extent.block_start ∧
        me.block_extent.block_end ≤ e.block_extent.block_end) →
      retire_loop n l budget fve m = some (ret, rem, fve2, m2) →
      l = ret ++ rem ∧
      ret.length ≤ budget ∧
      (∀ e ∈ ret, can_retire_entry e = true) ∧
      fve2 = (fve + ret.length) % n ∧
      (∀ i (hi : i < ret.length),
        (ret.get ⟨i, hi⟩).log_entry_index = (fve + i) % n) ∧
      Nonoverlapping m2.entries ∧ AllWF m2.entries ∧ RefsConsistent m2 ∧
      (∀ me ∈ m2.entries, me ∈ m.entries) ∧
      (∀ e ∈ ret, e.is_write = true →
        ∀ me ∈ m2.entries, me.log_entry ≠ e.log_entry_index) := by
  intro l
  induction l with
  | nil =>
    intro budget fve m ret rem fve2 m2 hfve hno hwf hrc hlink hloop
    simp only [retire_loop, Option.some.injEq, Prod.mk.injEq] at hloop
    obtain ⟨rfl, rfl, rfl, rfl⟩ := hloop
    exact ⟨rfl, by simp, by simp, by simp [Nat.mod_eq_of_lt hfve],
      fun i hi => absurd hi (by simp), hno, hwf, hrc, fun me hme => hme,
      by simp⟩
  | cons e rest ih =>
    intro budget fve m ret rem fve2 m2 hfve hno hwf hrc hlink hloop
    have hn : 0 < n := Nat.lt_of_le_of_lt (Nat.zero_le _) hfve
    rw [retire_loop] at hloop
    by_cases hb : budget = 0
    · rw [if_pos hb] at hloop
      simp only [Option.some.injEq, Prod.mk.injEq] at hloop
      obtain ⟨rfl, rfl, rfl, rfl⟩ := hloop
      exact ⟨rfl, by simp, by simp, by simp [Nat.mod_eq_of_lt hfve],
        fun i hi => absurd hi (by simp), hno, hwf, hrc, fun me hme => hme,
        by simp⟩
    · rw [if_neg hb] at hloop
      by_cases hcan : can_retire_entry e
      · rw [if_pos hcan] at hloop
        by_cases hidx : e.log_entry_index = fve
        · rw [if_pos hidx] at hloop
          have hlinke : ∀ me ∈ m.entries, me.log_entry = e.log_entry_index →
              e.block_extent.block_start ≤ me.block_extent.block_start ∧
              me.block_extent.block_end ≤ e.block_extent.block_end :=
            fun me hme hid => hlink me hme e (by simp) hid
          have hm2 : Nonoverlapping (if e.is_write then
                remove_log_entry_locked m e.log_entry_index e.block_extent
              else m).entries ∧
              AllWF (if e.is_write then
                remove_log_entry_locked m e.log_entry_index e.block_extent
              else m).entries ∧
              RefsConsistent (if e.is_write then
                remove_log_entry_locked m e.log_entry_index e.block_extent
              else m) ∧
              (∀ me ∈ (if e.is_write then
                remove_log_entry_locked m e.log_entry_index e.block_extent
              else m).entries, me ∈ m.entries) ∧
              (e.is_write = true → ∀ me ∈ (if e.is_write then
                remove_log_entry_locked m e.log_entry_index e.block_extent
              else m).entries, me.log_entry ≠ e.log_entry_index) := by
            by_cases hw : e.is_write
            · rw [if_pos hw]
              have hsp := remove_log_entry_spec m e.log_entry_index
                e.block_extent hno hwf hrc hlinke
              exact ⟨hsp.1, hsp.2.1, hsp.2.2.1, hsp.2.2.2.1,
                fun _ => hsp.2.2.2.2⟩
            · rw [if_neg hw]
              exact ⟨hno, hwf, hrc, fun me hme => hme,
                fun hcontra => absurd hcontra (by simp [hw])⟩
          obtain ⟨hno1, hwf1, hrc1, hsub1, hfree1⟩ := hm2
          rcases hrec : retire_loop n rest (budget - 1) ((fve + 1) % n)
              (if e.is_write then
                remove_log_entry_locked m e.log_entry_index e.block_extent
              else m) with - | q
          · rw [hrec] at hloop
            simp at hloop
          · obtain ⟨ret1, rem1, fve21, m21⟩ := q
            rw [hrec] at hloop
            simp only [Option.some.injEq, Prod.mk.injEq] at hloop
            obtain ⟨rfl, rfl, rfl, rfl⟩ := hloop
            have hlink1 : ∀ me ∈ (if e.is_write then
                remove_log_entry_locked m e.log_entry_index e.block_extent
              else m).entries, ∀ x ∈ rest, me.log_entry = x.log_entry_index →
                x.block_extent.block_start ≤ me.block_extent.block_start ∧
                me.block_extent.block_end ≤ x.block_extent.block_end :=
              fun me hme x hx hid => hlink me (hsub1 me hme) x (by simp [hx]) hid
            obtain ⟨hl, hlen, hel, hfve2, hidxs, hno2, hwf2, hrc2, hsub2, hfree2⟩ :=
              ih (budget - 1) ((fve + 1) % n) _ ret1 rem1 fve21 m21
                (Nat.mod_lt _ hn) hno1 hwf1 hrc1 hlink1 hrec
            refine ⟨by rw [List.cons_append, ← hl], ?_, ?_, ?_, ?_, hno2,
              hwf2, hrc2, fun me hme => hsub1 me (hsub2 me hme), ?_⟩
            · simp only [List.length_cons]
              omega
            · intro x hx
              rcases List.mem_cons.mp hx with rfl | hx2
              · exact hcan
              · exact hel x hx2
            · rw [hfve2, Nat.mod_add_mod, List.length_cons,
                show fve + 1 + ret1.length = fve + (ret1.length + 1) from by omega]
            · intro i hi
              cases i with
              | zero =>
                simp only [List.get]
                rw [hidx, Nat.add_zero, Nat.mod_eq_of_lt hfve]
              | succ i =>
                have hi2 : i < ret1.length := by
                  simp only [List.length_cons] at hi
                  omega
                have hget : (e :: ret1).get ⟨i + 1, hi⟩ = ret1.get ⟨i, hi2⟩ := rfl
                rw [hget, hidxs i hi2, Nat.mod_add_mod,
                  show fve + 1 + i = fve + (i + 1) from by omega]
            · intro x hx hxw me hme
              rcases List.mem_cons.mp hx with rfl | hx2
              · exact hfree1 hxw me (hsub2 me hme)
              · exact hfree2 x hx2 hxw me hme
        · rw [if_neg hidx] at hloop
          simp at hloop
      · rw [if_neg hcan] at hloop
        simp only [Option.some.injEq, Prod.mk.injEq] at hloop
        obtain ⟨rfl, rfl, rfl, rfl⟩ := hloop
        exact ⟨rfl, by simp, by simp, by simp [Nat.mod_eq_of_lt hfve],
          fun i hi => absurd hi (by simp), hno, hwf, hrc, fun me hme => hme,
          by simp⟩

/--
C4: a successful `retire_entries(k)` (no assertion failure) retires at most
`k` of the oldest log entries: they are a prefix of the log list, each is
completed, flushed with zero readers if a write, their ring indices run
contiguously from `first_valid_entry`, and after the map removals performed
while selecting them no retired write has any map back-reference left
(`refs = 0` at the moment the retirement transaction runs).  When anything
was retired, a single transaction-and-update step sets
`root.first_valid_entry` to the advanced index, frees exactly the retired
writes' data buffers and credits `free_log_entries`; otherwise the state is
unchanged and false is returned.
-/
theorem C4_retire_entries (s : RetireState) (k : Nat) (s2 : RetireState)
    (b : Bool)
    (hfve : s.first_valid_entry < s.total_log_entries)
    (hno : Nonoverlapping s.blocks_to_log_entries.entries)
    (hwf : AllWF s.blocks_to_log_entries.entries)
    (hrc : RefsConsistent s.blocks_to_log_entries)
    (hlink : ∀ me ∈ s.blocks_to_log_entries.entries, ∀ e ∈ s.log_entries,
      me.log_entry = e.log_entry_index →
      e.block_extent.block_start ≤ me.block_extent.block_start ∧
      me.block_extent.block_end ≤ e.block_extent.block_end)
    (hsucc : retire_entries s k = some (s2, b)) :
    ∃ retiring : List RetireLogEntry,
      s.log_entries = retiring ++ s2.log_entries ∧
      retiring.length ≤ k ∧
      (∀ e ∈ retiring, e.completed = true ∧
        (e.is_write = true → e.flushed = true ∧ e.reader_count = 0)) ∧
      (∀ i (hi : i < retiring.length),
        (retiring.get ⟨i, hi⟩).log_entry_index =
          (s.first_valid_entry + i) % s.total_log_entries) ∧
      s2.first_valid_entry =
        (s.first_valid_entry + retiring.length) % s.total_log_entries ∧
      (∀ e ∈ retiring, e.is_write = true →
        s2.blocks_to_log_entries.refs e.log_entry_index = 0) ∧
      (retiring ≠ [] →
        s2.root_first_valid_entry = s2.first_valid_entry ∧
        s2.free_log_entries = s.free_log_entries + retiring.length ∧
        s2.freed_buffers = s.freed_buffers ++
          (retiring.filter (fun e => e.is_write)).map (fun e => e.write_data)) ∧
      (retiring = [] → s2 = s ∧ b = false) := by
  unfold retire_entries at hsucc
  rcases hloop : retire_loop s.total_log_entries s.log_entries k
      s.first_valid_entry s.blocks_to_log_entries with - | q
  · rw [hloop] at hsucc
    simp at hsucc
  · obtain ⟨retiring, remaining, fve2, m2⟩ := q
    rw [hloop] at hsucc
    dsimp only at hsucc
    obtain ⟨hl, hlen, hel, hfve2, hidxs, hno2, hwf2, hrc2, hsub2, hfree2⟩ :=
      retire_loop_spec s.total_log_entries s.log_entries k s.first_valid_entry
        s.blocks_to_log_entries retiring remaining fve2 m2 hfve hno hwf hrc
        hlink hloop
    by_cases hz : retiring.length = 0
    · rw [if_pos hz] at hsucc
      simp only [Option.some.injEq, Prod.mk.injEq] at hsucc
      obtain ⟨rfl, rfl⟩ := hsucc
      refine ⟨[], by simp, by simp, by simp, fun i hi => absurd hi (by simp),
        by simp [Nat.mod_eq_of_lt hfve], by simp, fun h => absurd rfl h,
        fun _ => ⟨rfl, rfl⟩⟩
    · rw [if_neg hz] at hsucc
      simp only [Option.some.injEq, Prod.mk.injEq] at hsucc
      obtain ⟨rfl, rfl⟩ := hsucc
      refine ⟨retiring, hl, hlen, ?_, hidxs, hfve2, ?_, ?_, ?_⟩
      · intro e he
        exact (can_retire_entry_eq e).mp (hel e he)
      · intro e he hw
        rw [hrc2 e.log_entry_index]
        rw [List.countP_eq_zero]
        intro a ha
        have := hfree2 e he hw a ha
        simp [this]
      · intro _
        exact ⟨rfl, rfl, rfl⟩
      · intro h
        exact absurd (by simp [h]) hz

/-- A concrete 5-slot retirement state: a flushed completed write at ring
index 2 covering blocks 0-9 with data buffer 100 and one map entry, followed
by a completed sync-point entry at index 3. -/
def retire_demo_state : RetireState :=
  { log_entries :=
      [⟨2, true, true, true, false, 0, ⟨0, 9⟩, 100⟩,
       ⟨3, false, true, false, false, 0, ⟨0, 0⟩, 0⟩],
    blocks_to_log_entries := ⟨[⟨⟨0, 9⟩, 2⟩], fun j => if 2 = j then 1 else 0⟩,
    first_valid_entry := 2,
    total_log_entries := 5,
    free_log_entries := 1,
    root_first_valid_entry := 2,
    freed_buffers := [] }

/-- Witness for C4: retiring the demo state retires both entries and leaves
the retired write with zero map back-references. -/
theorem C4_retire_entries_witness :
    (retire_entries retire_demo_state 4).isSome = true ∧
    (retire_entries retire_demo_state 4).map
      (fun q => q.1.blocks_to_log_entries.refs 2) = some 0 := by
  refine ⟨rfl, ?_⟩
  rcases hr : retire_entries retire_demo_state 4 with - | p
  · have hs : (retire_entries retire_demo_state 4).isSome = true := rfl
    rw [hr] at hs
    simp at hs
  · obtain ⟨retiring, hdec, hlen, hel, hidx, hfve2, hrefs0, -, -⟩ :=
      C4_retire_entries retire_demo_state 4 p.1 p.2
        (by decide)
        (by unfold Nonoverlapping retire_demo_state; decide)
        (by
          intro e he
          rcases (by simpa [retire_demo_state] using he :
              e = (⟨⟨0, 9⟩, 2⟩ : WriteLogMapEntry)) with rfl
          exact Nat.zero_le _)
        (by
          intro j
          by_cases hj : (2 : Nat) = j <;>
            simp [retire_demo_state, List.countP_cons, hj])
        (by decide)
        (by rw [hr])
    have hlog : p.1.log_entries = [] := by
      have h2 : Option.map (fun q : RetireState × Bool => q.1.log_entries)
          (retire_entries retire_demo_state 4) = some [] := rfl
      rw [hr] at h2
      simpa using h2
    have hret : retiring = retire_demo_state.log_entries := by
      rw [hlog] at hdec
      simpa using hdec.symm
    simp only [Option.map]
    have hzero := hrefs0 ⟨2, true, true, true, false, 0, ⟨0, 9⟩, 100⟩
      (by rw [hret]; simp [retire_demo_state]) rfl
    simpa using hzero

end RWL
